import Mathlib

/-!
# Verification of the rustlearn tree-learning core against its specification

The repository excerpt contains only the crate root (`src/lib.rs`: crate
documentation and module declarations).  The tree/forest implementation
itself (array types, decision tree, random forest, multiclass wrapper) is
declared there but its bodies are not part of the excerpt, so the
components below are modelled from the specification document, faithful to
its words.  Feature values and thresholds are exact rationals standing in
for the machine floats of the implementation; they are represented by the
explicit fraction type `Frac` below, whose arithmetic and comparisons are
plain integer computations, so concrete instances evaluate by `decide`.
Classification labels are small non-negative integers, as the spec
prescribes.
-/

namespace Rustlearn

/-! ## Exact rational scalars -/

/-- An exact rational scalar: an integer numerator over a positive natural
denominator.  Stands in for the implementation's floating-point feature
values and impurity scores, with exact arithmetic. -/
structure Frac where
  num : Int
  den : Nat
  pos : 0 < den
deriving DecidableEq

/-- The embedding of a natural number. -/
def Frac.ofNat (n : Nat) : Frac := ⟨n, 1, Nat.one_pos⟩

def Frac.neg (a : Frac) : Frac := ⟨-a.num, a.den, a.pos⟩

def Frac.add (a b : Frac) : Frac :=
  ⟨a.num * (b.den : Int) + b.num * (a.den : Int), a.den * b.den, Nat.mul_pos a.pos b.pos⟩

def Frac.sub (a b : Frac) : Frac := a.add b.neg

def Frac.mul (a b : Frac) : Frac :=
  ⟨a.num * b.num, a.den * b.den, Nat.mul_pos a.pos b.pos⟩

def Frac.inv (a : Frac) : Frac :=
  if h : 0 < a.num then ⟨(a.den : Int), a.num.toNat, by omega⟩
  else if h2 : a.num < 0 then ⟨-(a.den : Int), (-a.num).toNat, by omega⟩
  else ⟨0, 1, Nat.one_pos⟩

def Frac.div (a b : Frac) : Frac := a.mul b.inv

/-- Strict order, by cross multiplication (denominators are positive). -/
def Frac.lt (a b : Frac) : Prop := a.num * (b.den : Int) < b.num * (a.den : Int)

/-- Non-strict order, by cross multiplication. -/
def Frac.le (a b : Frac) : Prop := a.num * (b.den : Int) ≤ b.num * (a.den : Int)

/-- Value equality (1/2 equals 2/4), as opposed to structural equality. -/
def Frac.eqv (a b : Frac) : Prop := a.num * (b.den : Int) = b.num * (a.den : Int)

instance : DecidableRel Frac.lt := fun _ _ => inferInstanceAs (Decidable (_ < _))

instance : DecidableRel Frac.le := fun _ _ => inferInstanceAs (Decidable (_ ≤ _))

instance : DecidableRel Frac.eqv := fun _ _ => inferInstanceAs (Decidable (_ = _))

/-- The rational value represented by a `Frac`. -/
def Frac.toRat (a : Frac) : ℚ := (a.num : ℚ) / (a.den : ℚ)

/-- The sum of a list of scalars. -/
def fsum (l : List Frac) : Frac := l.foldr Frac.add (Frac.ofNat 0)

/-- One half, the threshold between feature values 0 and 1. -/
def fhalf : Frac := ⟨1, 2, by omega⟩

/-! ## Data model: dense and sparse feature matrices -/

/-- Modelled from the spec: the error taxonomy of §7 —
ConfigurationError, ShapeError, IndexError, InsufficientDataError. -/
inductive MLError
  | configuration
  | shape
  | indexOutOfRange
  | insufficientData
deriving DecidableEq

/-- Modelled from the spec (§3, missing `array/dense`): a dense matrix is
row-major contiguous values with a fixed (rows, cols) shape. -/
structure DenseMatrix where
  data : List (List Frac)
  nCols : Nat
deriving DecidableEq

/-- Modelled from the spec (§3, missing `array/sparse`): a sparse matrix is
per-row sorted (column-index, value) lists of the stored non-zeros. -/
structure SparseMatrix where
  data : List (List (Nat × Frac))
  nCols : Nat
deriving DecidableEq

/-- Modelled from the spec (§3): FeatureMatrix is a variant over
{Dense, Sparse}. -/
inductive FeatureMatrix
  | dense : DenseMatrix → FeatureMatrix
  | sparse : SparseMatrix → FeatureMatrix
deriving DecidableEq

/-- The tag of the variant, used to state that `get_rows` preserves it. -/
inductive MatrixVariant
  | dense
  | sparse
deriving DecidableEq

def FeatureMatrix.variant : FeatureMatrix → MatrixVariant
  | .dense _ => .dense
  | .sparse _ => .sparse

/-- Modelled from the spec (§4.1): `rows()`. -/
def FeatureMatrix.rows : FeatureMatrix → Nat
  | .dense m => m.data.length
  | .sparse m => m.data.length

/-- Modelled from the spec (§4.1): `cols()`. -/
def FeatureMatrix.cols : FeatureMatrix → Nat
  | .dense m => m.nCols
  | .sparse m => m.nCols

/-- Modelled from the spec (§4.1): `row_entries(i)` — dense rows yield every
column as a (col, value) pair; sparse rows yield only the stored non-zeros. -/
def FeatureMatrix.rowEntries : FeatureMatrix → Nat → List (Nat × Frac)
  | .dense m, i => ((m.data.getD i []).enum).map (fun p => (p.1, p.2))
  | .sparse m, i => m.data.getD i []

/-- Modelled from the spec (§4.1): `get_rows(indices)` extracts the requested
row subset, duplicates included, into a new matrix of the same variant;
fails with an index-out-of-range error if any index is ≥ `rows()`. -/
def FeatureMatrix.getRows : FeatureMatrix → List Nat → Except MLError FeatureMatrix
  | .dense m, idx =>
    if idx.all (fun i => decide (i < m.data.length)) then
      .ok (.dense ⟨idx.map (fun i => m.data.getD i []), m.nCols⟩)
    else .error .indexOutOfRange
  | .sparse m, idx =>
    if idx.all (fun i => decide (i < m.data.length)) then
      .ok (.sparse ⟨idx.map (fun i => m.data.getD i []), m.nCols⟩)
    else .error .indexOutOfRange

/-- A small dense matrix used as a concrete instantiation. -/
def exDense : FeatureMatrix := .dense ⟨[[Frac.ofNat 1], [Frac.ofNat 2]], 1⟩

/-- The spec's §8 scenario matrix: 4 rows, 1 feature column, values 0,0,1,1. -/
def exScenario : FeatureMatrix :=
  .dense ⟨[[Frac.ofNat 0], [Frac.ofNat 0], [Frac.ofNat 1], [Frac.ofNat 1]], 1⟩

/-! ## Values, labels, impurity -/

/-- Modelled from the spec (§4.2, §9): the value of row `r` at column `f`;
sparse rows use the implicit-zero convention for missing entries, so
row-access semantics are identical across variants. -/
def FeatureMatrix.val (M : FeatureMatrix) (r f : Nat) : Frac :=
  match M with
  | .dense m => (m.data.getD r []).getD f (Frac.ofNat 0)
  | .sparse m =>
    match (m.data.getD r []).lookup f with
    | some v => v
    | none => Frac.ofNat 0

/-- The labels of the rows in `R`, read off the label vector `y`. -/
def labelsOf (y : List Nat) (R : List Nat) : List Nat :=
  R.map (fun r => y.getD r 0)

/-- Whether all rows of `R` carry one and the same label. -/
def allSameLabel (y : List Nat) (R : List Nat) : Bool :=
  match labelsOf y R with
  | [] => true
  | l :: ls => ls.all (fun a => a == l)

/-- Modelled from the spec (§4.2, glossary): the Gini impurity of a label
multiset, `1 - Σ_c (count c / n)²`.  (The entropy criterion needs a real
logarithm; the development uses the Gini instance, and states the
split-finder theorems for an arbitrary impurity criterion.) -/
def gini (ls : List Nat) : Frac :=
  if ls.length = 0 then Frac.ofNat 0
  else (Frac.ofNat 1).sub (fsum ((ls.dedup).map (fun c =>
    ((Frac.ofNat (ls.count c)).div (Frac.ofNat ls.length)).mul
      ((Frac.ofNat (ls.count c)).div (Frac.ofNat ls.length)))))

/-- Modelled from the spec (§4.3): the empirical class-label distribution
over `R`, as (class, count) pairs with classes ascending. -/
def distOf (y : List Nat) (R : List Nat) : List (Nat × Nat) :=
  (List.insertionSort (· ≤ ·) (labelsOf y R).dedup).map
    (fun c => (c, (labelsOf y R).count c))

/-- Scan a class-distribution, keeping the first class whose count is not
strictly exceeded later — arg-max with ties broken by the earliest entry. -/
def bestClass : Nat → Nat → List (Nat × Nat) → Nat
  | c, _, [] => c
  | c, n, (c2, n2) :: rest => if n < n2 then bestClass c2 n2 rest else bestClass c n rest

/-- Modelled from the spec (§4.3, §4.5): the class predicted from a leaf's
distribution — the arg-max class, ties broken by lowest class index. -/
def leafPred : List (Nat × Nat) → Nat
  | [] => 0
  | (c, n) :: rest => bestClass c n rest

/-! ## SplitFinder -/

/-- Remove value-duplicates from a list of scalars, keeping the last
occurrence of each value (the shape of `List.dedup`, under value equality
rather than structural equality). -/
def dedupF : List Frac → List Frac
  | [] => []
  | a :: rest =>
    let d := dedupF rest
    if d.any (fun b => decide (Frac.eqv a b)) then d else a :: d

/-- Midpoints of consecutive entries of a value list (§4.2: candidate
thresholds lie at consecutive midpoints between distinct sorted values). -/
def midpoints : List Frac → List Frac
  | a :: b :: rest => (a.add b).div (Frac.ofNat 2) :: midpoints (b :: rest)
  | _ => []

/-- The distinct values of column `f` over the rows `R`, sorted ascending. -/
def featureValues (M : FeatureMatrix) (R : List Nat) (f : Nat) : List Frac :=
  List.insertionSort Frac.le (dedupF (R.map (fun r => M.val r f)))

/-- The candidate thresholds of feature `f` over the rows `R`. -/
def featureThresholds (M : FeatureMatrix) (R : List Nat) (f : Nat) : List Frac :=
  midpoints (featureValues M R f)

/-- All candidate (feature, threshold) pairs, features scanned in ascending
index order and thresholds ascending within a feature, so that
first-encountered tie-breaking matches the spec (§4.2). -/
def candidateSplits (M : FeatureMatrix) (R : List Nat) (F : List Nat) : List (Nat × Frac) :=
  (List.insertionSort (· ≤ ·) F).flatMap
    (fun f => (featureThresholds M R f).map (fun θ => (f, θ)))

/-- The rows of `R` sent to the left child (value < threshold). -/
def leftRows (M : FeatureMatrix) (R : List Nat) (f : Nat) (θ : Frac) : List Nat :=
  R.filter (fun r => decide (Frac.lt (M.val r f) θ))

/-- The rows of `R` sent to the right child (value ≥ threshold). -/
def rightRows (M : FeatureMatrix) (R : List Nat) (f : Nat) (θ : Frac) : List Nat :=
  R.filter (fun r => decide (Frac.le θ (M.val r f)))

/-- Modelled from the spec (§4.2): the weighted child impurity of the
candidate split (f, θ) of the rows `R` under the criterion `crit`. -/
def weightedImpurity (crit : List Nat → Frac) (M : FeatureMatrix) (y : List Nat)
    (R : List Nat) (f : Nat) (θ : Frac) : Frac :=
  (((Frac.ofNat (leftRows M R f θ).length).mul (crit (labelsOf y (leftRows M R f θ)))).add
    ((Frac.ofNat (rightRows M R f θ).length).mul
      (crit (labelsOf y (rightRows M R f θ))))).div
    (Frac.ofNat R.length)

/-- Keep the first element of a list minimizing `w`: later elements replace
the incumbent only when strictly smaller (first-encountered tie-break). -/
def pickBest {α : Type} (w : α → Frac) : List α → Option α
  | [] => none
  | c :: cs =>
    match pickBest w cs with
    | none => some c
    | some b => if Frac.lt (w b) (w c) then some b else some c

/-- Modelled from the spec (§4.2): the SplitFinder.  Returns `none` when `R`
has fewer than `minSamplesSplit` rows, or all rows of `R` share one label,
or no candidate split lowers the weighted child impurity below the parent's
impurity; otherwise the first-encountered (feature, threshold) pair of
minimal weighted child impurity. -/
def bestSplit (crit : List Nat → Frac) (mss : Nat) (M : FeatureMatrix) (y : List Nat)
    (F : List Nat) (R : List Nat) : Option (Nat × Frac) :=
  if R.length < mss then none
  else if allSameLabel y R then none
  else
    match pickBest (fun c => weightedImpurity crit M y R c.1 c.2) (candidateSplits M R F) with
    | none => none
    | some b =>
      if Frac.lt (weightedImpurity crit M y R b.1 b.2) (crit (labelsOf y R)) then some b
      else none

/-! ## Random streams and subsampling -/

/-- Modelled from the spec (§9): a deterministic random stream — a 64-bit
linear congruential step (machine arithmetic taken modulo 2^64). -/
def lcgNext (s : Nat) : Nat :=
  (6364136223846793005 * s + 1442695040888963407) % (2 ^ 64)

/-- Modelled from the spec (§9): the per-worker stream seed, derived
deterministically from a root seed plus the worker index. -/
def mixSeed (s i : Nat) : Nat := lcgNext ((s + i) % (2 ^ 64))

/-- Draw `k` elements from `pool` without replacement, driven by `g`. -/
def sampleIdxAux : Nat → List Nat → Nat → List Nat
  | _, _, 0 => []
  | g, pool, k + 1 =>
    match pool with
    | [] => []
    | _ :: _ =>
      pool.getD (g % pool.length) 0 ::
        sampleIdxAux (lcgNext g) (pool.eraseIdx (g % pool.length)) k

/-- Modelled from the spec (§4.2, §4.3): the candidate feature subset of one
split evaluation — the full feature set when `max_features` is unset, else a
fresh random subset of that size, sampled without replacement and scanned in
ascending index order. -/
def sampleFeatures (g : Nat) (nCols : Nat) (mf : Option Nat) : List Nat :=
  match mf with
  | none => List.range nCols
  | some k => List.insertionSort (· ≤ ·) (sampleIdxAux g (List.range nCols) k)

/-! ## DecisionTree -/

/-- Modelled from the spec (§3, §6): the decision-tree hyperparameters. -/
structure TreeParams where
  minSamplesSplit : Nat
  maxDepth : Option Nat
  maxFeatures : Option Nat
  seed : Nat
deriving DecidableEq

/-- Whether the depth bound stops induction at depth `depth` (§4.3: the
depth bound is applied before the impurity check). -/
def depthStop (maxDepth : Option Nat) (depth : Nat) : Bool :=
  match maxDepth with
  | none => false
  | some d => decide (d ≤ depth)

/-- The recursive structure of one induced tree, before arena layout. -/
inductive BTree
  | leaf : List (Nat × Nat) → BTree
  | split : Nat → Frac → BTree → BTree → BTree
deriving DecidableEq

/-- Prediction on the recursive tree: descend left when the row's value at
the split feature is `<` the threshold, else right (§4.3). -/
def predB : BTree → (Nat → Frac) → Nat
  | .leaf d, _ => leafPred d
  | .split f θ l r, x => if Frac.lt (x f) θ then predB l x else predB r x

/-- Modelled from the spec (§4.3): recursive CART induction.  A node becomes
a Leaf when the depth bound stops it or the SplitFinder returns no split;
otherwise it becomes a Split and induction recurses into the two partitioned
row subsets.  `fuel` bounds the recursion depth; every split strictly
shrinks the row subset, so `fuel = |R|` never runs out. -/
def buildAux (crit : List Nat → Frac) (p : TreeParams) (M : FeatureMatrix) (y : List Nat) :
    Nat → Nat → Nat → List Nat → BTree
  | 0, _, _, R => .leaf (distOf y R)
  | fuel + 1, g, depth, R =>
    if depthStop p.maxDepth depth then .leaf (distOf y R)
    else
      match bestSplit crit p.minSamplesSplit M y (sampleFeatures g M.cols p.maxFeatures) R with
      | none => .leaf (distOf y R)
      | some (f, θ) =>
        .split f θ
          (buildAux crit p M y fuel (mixSeed g 1) (depth + 1) (leftRows M R f θ))
          (buildAux crit p M y fuel (mixSeed g 2) (depth + 1) (rightRows M R f θ))

/-- The number of nodes of a recursive tree. -/
def sizeB : BTree → Nat
  | .leaf _ => 1
  | .split _ _ l r => sizeB l + sizeB r + 1

/-- Modelled from the spec (§3): an arena node — a tagged Leaf/Split variant
holding arena indices of its children rather than pointers. -/
inductive TreeNode
  | leaf : List (Nat × Nat) → TreeNode
  | split : Nat → Frac → Nat → Nat → TreeNode
deriving DecidableEq

/-- The arena segment a tree occupies when laid out starting at index
`off`: children first (post-order), each Split node holding the absolute
arena indices of its two children. -/
def nodesAt : Nat → BTree → List TreeNode
  | _, .leaf d => [.leaf d]
  | off, .split f θ l r =>
    nodesAt off l ++ nodesAt (off + sizeB l) r ++
      [.split f θ (off + sizeB l - 1) (off + sizeB l + sizeB r - 1)]

/-- All arena indices referenced as children by some node of the arena:
a Leaf contributes none, a Split exactly its two child indices. -/
def childRefs (a : List TreeNode) : List Nat :=
  a.flatMap (fun n =>
    match n with
    | .leaf _ => []
    | .split _ _ l r => [l, r])

/-- Modelled from the spec (§3): a fitted Tree — its node arena, the root
index, and the training column count (used by predict's shape check). -/
structure Tree where
  arena : List TreeNode
  root : Nat
  nCols : Nat
deriving DecidableEq

/-- Modelled from the spec (§4.3): `DecisionTree.fit` — recursive induction
from the full row set, followed by arena layout. -/
def treeFitB (p : TreeParams) (M : FeatureMatrix) (y : List Nat) : BTree :=
  buildAux gini p M y M.rows p.seed 0 (List.range M.rows)

def treeFit (p : TreeParams) (M : FeatureMatrix) (y : List Nat) : Tree :=
  ⟨nodesAt 0 (treeFitB p M y), sizeB (treeFitB p M y) - 1, M.cols⟩

/-- Arena traversal from node `i`: at a Split, compare the row's value at
the split feature against the threshold and descend; at a Leaf, return its
arg-max class.  `fuel` bounds the walk; child indices strictly decrease, so
`fuel = arena length` suffices. -/
def traverseArena (a : List TreeNode) : Nat → Nat → (Nat → Frac) → Nat
  | 0, _, _ => 0
  | fuel + 1, i, x =>
    match a.getD i (.leaf []) with
    | .leaf d => leafPred d
    | .split f θ l r =>
      if Frac.lt (x f) θ then traverseArena a fuel l x else traverseArena a fuel r x

/-- Predict the class of one row (given as a column-value function). -/
def Tree.predictRow (t : Tree) (x : Nat → Frac) : Nat :=
  traverseArena t.arena t.arena.length t.root x

/-- Modelled from the spec (§4.3, §6): `DecisionTree.predict` — fails with a
shape error when the input's column count differs from the training column
count, else predicts every row by tree traversal. -/
def Tree.predict (t : Tree) (M : FeatureMatrix) : Except MLError (List Nat) :=
  if M.cols = t.nCols then
    .ok ((List.range M.rows).map (fun i => t.predictRow (fun f => M.val i f)))
  else .error .shape

/-- Modelled from the spec (§8): the "non-degenerate data" proviso of the
perfect-memorization property, made precise — on every duplicate-free row
subset of the training set that still carries two distinct labels, plain
CART's split finder (full feature set, `min_samples_split = 1`, Gini) finds
an impurity-reducing split.  Degenerate data (e.g. an XOR labelling, where
no single axis split lowers the weighted impurity) is exactly what this
excludes. -/
def nonDegenerateB (M : FeatureMatrix) (y : List Nat) : Bool :=
  (List.range M.rows).sublists.all (fun R =>
    R.isEmpty || allSameLabel y R || (bestSplit gini 1 M y (List.range M.cols) R).isSome)

/-! ## RandomForest -/

/-- Modelled from the spec (§3, §6): the random-forest hyperparameters. -/
structure ForestParams where
  minSamplesSplit : Nat
  maxDepth : Option Nat
  maxFeatures : Option Nat
  nTrees : Nat
  seed : Nat
deriving DecidableEq

/-- Modelled from the spec (§3): a fitted Forest — the ordered sequence of
trees and the training column count. -/
structure Forest where
  trees : List Tree
  nCols : Nat
deriving DecidableEq

/-- Modelled from the spec (§4.4): the Bagger draws `k` samples with
replacement from `[0, n)`, advancing its own random stream. -/
def bagDraws : Nat → Nat → Nat → List Nat
  | _, _, 0 => []
  | g, n, k + 1 => (g % n) :: bagDraws (lcgNext g) n k

/-- One bootstrap sample: `n` draws with replacement from `[0, n)`. -/
def bagSample (g n : Nat) : List Nat := bagDraws g n n

/-- Row-subset extraction by indices already known to be in range (the
checked `get_rows` of §4.1 agrees with it on valid indices). -/
def FeatureMatrix.getRowsTotal : FeatureMatrix → List Nat → FeatureMatrix
  | .dense m, idx => .dense ⟨idx.map (fun i => m.data.getD i []), m.nCols⟩
  | .sparse m, idx => .sparse ⟨idx.map (fun i => m.data.getD i []), m.nCols⟩

/-- The label subset for a bootstrap index multiset. -/
def labelsGather (y : List Nat) (idx : List Nat) : List Nat :=
  idx.map (fun i => y.getD i 0)

/-- Modelled from the spec (§4.4, §9): the bootstrap sample of ensemble
member `i`, drawn from the per-worker stream derived from the root seed
plus the worker index. -/
def bootstrapIdx (p : ForestParams) (M : FeatureMatrix) (i : Nat) : List Nat :=
  bagSample (mixSeed p.seed i) M.rows

/-- Modelled from the spec (§4.5): fit ensemble member `i` — bag row
indices, extract the bootstrap matrix and labels, induce one DecisionTree
with the forest's tree hyperparameters and a seed derived from member `i`'s
stream. -/
def fitOneTree (p : ForestParams) (M : FeatureMatrix) (y : List Nat) (i : Nat) : Tree :=
  treeFit ⟨p.minSamplesSplit, p.maxDepth, p.maxFeatures, lcgNext (mixSeed p.seed i)⟩
    (M.getRowsTotal (bootstrapIdx p M i)) (labelsGather y (bootstrapIdx p M i))

/-- Modelled from the spec (§4.5, §7, §8): `RandomForest.fit` — fails with
ConfigurationError when `n_trees = 0`, with InsufficientDataError on a
zero-row training matrix (§7's taxonomy and §8's boundary property), with
ShapeError on a label/matrix length mismatch; otherwise trains the ordered
ensemble. -/
def forestFit (p : ForestParams) (M : FeatureMatrix) (y : List Nat) :
    Except MLError Forest :=
  if p.nTrees = 0 then .error .configuration
  else if M.rows = 0 then .error .insufficientData
  else if y.length ≠ M.rows then .error .shape
  else .ok ⟨(List.range p.nTrees).map (fitOneTree p M y), M.cols⟩

/-- The per-class vote tally of the ensemble's predictions, classes
ascending. -/
def tallyVotes (ps : List Nat) : List (Nat × Nat) :=
  (List.insertionSort (· ≤ ·) ps.dedup).map (fun c => (c, ps.count c))

/-- Modelled from the spec (§4.5): majority vote over predicted classes,
ties broken by lowest class index. -/
def majorityVote (ps : List Nat) : Nat := leafPred (tallyVotes ps)

/-- Dispatch one row to every tree and aggregate by majority vote (§4.5). -/
def Forest.predictRow (fo : Forest) (x : Nat → Frac) : Nat :=
  majorityVote (fo.trees.map (fun t => t.predictRow x))

/-- Modelled from the spec (§4.5, §8): `RandomForest.predict` — fails with a
shape error when the input's column count differs from the training column
count, else votes row by row. -/
def Forest.predict (fo : Forest) (M : FeatureMatrix) : Except MLError (List Nat) :=
  if M.cols = fo.nCols then
    .ok ((List.range M.rows).map (fun i => fo.predictRow (fun f => M.val i f)))
  else .error .shape

/-- Modelled from the spec (§5): the result stream of a parallel fit —
workers complete in the order given by `order`, each delivering its
contribution keyed by its fixed tree index, not by arrival time. -/
def parResults (p : ForestParams) (M : FeatureMatrix) (y : List Nat)
    (order : List Nat) : List (Nat × Tree) :=
  order.map (fun i => (i, fitOneTree p M y i))

def defaultTree : Tree := ⟨[], 0, 0⟩

/-- Merge worker results into the ordered output slots: slot `i` receives
the contribution keyed `i`, regardless of completion order. -/
def mergeByIndex (n : Nat) (res : List (Nat × Tree)) : List Tree :=
  (List.range n).map (fun i => (res.lookup i).getD defaultTree)

/-- Modelled from the spec (§5): `RandomForest.fit` run on a worker pool
whose completion order is `order` — fork-join over disjoint output slots
merged after all workers complete. -/
def forestFitPar (p : ForestParams) (M : FeatureMatrix) (y : List Nat)
    (order : List Nat) : Except MLError Forest :=
  if p.nTrees = 0 then .error .configuration
  else if M.rows = 0 then .error .insufficientData
  else if y.length ≠ M.rows then .error .shape
  else .ok ⟨mergeByIndex p.nTrees (parResults p M y order), M.cols⟩

/-! ## OneVsRestWrapper -/

/-- Modelled from the spec (§4.6): the trained multiclass wrapper — the
observed class labels and one binary estimator per class. -/
structure OvrModel (σ : Type) where
  classes : List Nat
  estimators : List σ

/-- The observed distinct labels of a target vector, ascending. -/
def distinctLabels (y : List Nat) : List Nat :=
  List.insertionSort (· ≤ ·) y.dedup

/-- Modelled from the spec (§4.6): the binary-relabeled target for class
`c` — 1 for "is this class", 0 otherwise. -/
def binaryRelabel (y : List Nat) (c : Nat) : List Nat :=
  y.map (fun l => if l = c then 1 else 0)

/-- Modelled from the spec (§4.6): `OneVsRestWrapper.fit` over any binary
estimator satisfying the fit contract `fitB` — fails when the target has
fewer than two distinct labels, else trains one estimator per observed
class on the binary-relabeled target. -/
def ovrFit {σ : Type} (fitB : FeatureMatrix → List Nat → σ) (M : FeatureMatrix)
    (y : List Nat) : Except MLError (OvrModel σ) :=
  if (distinctLabels y).length < 2 then .error .insufficientData
  else .ok ⟨distinctLabels y,
    (distinctLabels y).map (fun c => fitB M (binaryRelabel y c))⟩

/-- Scan scored classes keeping the first strict maximum (arg-max with ties
broken by the earliest — lowest — class). -/
def goArgmax : Nat → Frac → List (Nat × Frac) → Nat
  | c, _, [] => c
  | c, s, (c2, s2) :: rest =>
    if Frac.lt s s2 then goArgmax c2 s2 rest else goArgmax c s rest

def argmaxClass : List (Nat × Frac) → Nat
  | [] => 0
  | (c, s) :: rest => goArgmax c s rest

/-- Modelled from the spec (§4.6): predict one row by evaluating every
class's estimator and returning the arg-max class, ties broken by lowest
class index. -/
def ovrPredictRow {σ : Type} (score : σ → (Nat → Frac) → Frac) (m : OvrModel σ)
    (x : Nat → Frac) : Nat :=
  argmaxClass ((m.classes.zip m.estimators).map (fun p => (p.1, score p.2 x)))

/-- A trivial binary estimator used to instantiate the wrapper concretely:
its model is the binary target itself. -/
def exFitB (_M : FeatureMatrix) (yb : List Nat) : List Nat := yb

/-- A score for `exFitB` models: the number of positive training labels. -/
def exScore (e : List Nat) (_x : Nat → Frac) : Frac := Frac.ofNat (e.count 1)

/-- A 1-row, 2-column dense matrix (wrong shape for 1-column models). -/
def exWide : FeatureMatrix := .dense ⟨[[Frac.ofNat 0, Frac.ofNat 0]], 2⟩

/-! ## The crate root (`src/lib.rs`): module surface vs. crate documentation -/

/-- The modules declared `pub mod` in `src/lib.rs` (lines 165–177 and the
`prelude` module), in source order. -/
def publicModules : List String :=
  ["array", "cross_validation", "datasets", "ensemble", "factorization",
   "feature_extraction", "linear_models", "metrics", "multiclass",
   "traits", "trees", "utils", "prelude"]

/-- The module declarations commented out in `src/lib.rs`
(`// pub mod svm;`, line 174). -/
def commentedOutModules : List String := ["svm"]

/-- The model families listed in the crate-level documentation's Models
section (`src/lib.rs` lines 21–25), by the module each link points into:
logistic regression (`linear_models`), support vector machines (`svm`),
decision trees (`trees`), random forests (`ensemble`), factorization
machines (`factorization`). -/
def docListedModelModules : List String :=
  ["linear_models", "svm", "trees", "ensemble", "factorization"]

/-! ## Order lemmas for the scalar type -/

theorem fden_pos (a : Frac) : (0 : ℚ) < (a.den : ℚ) := by exact_mod_cast a.pos

theorem flt_iff (a b : Frac) : Frac.lt a b ↔ a.toRat < b.toRat := by
  rw [Frac.toRat, Frac.toRat, div_lt_div_iff₀ (fden_pos a) (fden_pos b), Frac.lt]
  constructor
  · intro h; exact_mod_cast h
  · intro h; exact_mod_cast h

theorem fle_iff (a b : Frac) : Frac.le a b ↔ a.toRat ≤ b.toRat := by
  rw [Frac.toRat, Frac.toRat, div_le_div_iff₀ (fden_pos a) (fden_pos b), Frac.le]
  constructor
  · intro h; exact_mod_cast h
  · intro h; exact_mod_cast h

theorem feqv_iff (a b : Frac) : Frac.eqv a b ↔ a.toRat = b.toRat := by
  rw [Frac.toRat, Frac.toRat, div_eq_div_iff (ne_of_gt (fden_pos a)) (ne_of_gt (fden_pos b)),
    Frac.eqv]
  constructor
  · intro h; exact_mod_cast h
  · intro h; exact_mod_cast h

theorem fle_refl (a : Frac) : Frac.le a a := (fle_iff a a).mpr le_rfl

theorem fle_trans {a b c : Frac} (h1 : Frac.le a b) (h2 : Frac.le b c) : Frac.le a c :=
  (fle_iff a c).mpr (le_trans ((fle_iff a b).mp h1) ((fle_iff b c).mp h2))

theorem fnot_lt {a b : Frac} : ¬ Frac.lt a b ↔ Frac.le b a := by
  rw [flt_iff, fle_iff]; exact not_lt

theorem fnot_le {a b : Frac} : ¬ Frac.le a b ↔ Frac.lt b a := by
  rw [flt_iff, fle_iff]; exact not_le

theorem fle_of_lt {a b : Frac} (h : Frac.lt a b) : Frac.le a b :=
  (fle_iff a b).mpr (le_of_lt ((flt_iff a b).mp h))

theorem fle_total (a b : Frac) : Frac.le a b ∨ Frac.le b a := by
  rw [fle_iff, fle_iff]; exact le_total _ _

theorem flt_trans {a b c : Frac} (h1 : Frac.lt a b) (h2 : Frac.lt b c) : Frac.lt a c :=
  (flt_iff a c).mpr (lt_trans ((flt_iff a b).mp h1) ((flt_iff b c).mp h2))

theorem flt_of_le_of_lt {a b c : Frac} (h1 : Frac.le a b) (h2 : Frac.lt b c) : Frac.lt a c :=
  (flt_iff a c).mpr (lt_of_le_of_lt ((fle_iff a b).mp h1) ((flt_iff b c).mp h2))

theorem flt_of_lt_of_le {a b c : Frac} (h1 : Frac.lt a b) (h2 : Frac.le b c) : Frac.lt a c :=
  (flt_iff a c).mpr (lt_of_lt_of_le ((flt_iff a b).mp h1) ((fle_iff b c).mp h2))

theorem flt_of_le_of_not_eqv {a b : Frac} (h1 : Frac.le a b) (h2 : ¬ Frac.eqv a b) :
    Frac.lt a b :=
  (flt_iff a b).mpr (lt_of_le_of_ne ((fle_iff a b).mp h1) (fun hc => h2 ((feqv_iff a b).mpr hc)))

instance : IsTotal Frac Frac.le := ⟨fle_total⟩

instance : IsTrans Frac Frac.le := ⟨fun _ _ _ => fle_trans⟩

theorem toRat_add (a b : Frac) : (a.add b).toRat = a.toRat + b.toRat := by
  rw [Frac.add, Frac.toRat, Frac.toRat, Frac.toRat]
  push_cast
  rw [div_add_div _ _ (ne_of_gt (fden_pos a)) (ne_of_gt (fden_pos b))]
  ring_nf

theorem toRat_mul (a b : Frac) : (a.mul b).toRat = a.toRat * b.toRat := by
  rw [Frac.mul, Frac.toRat, Frac.toRat, Frac.toRat]
  push_cast
  rw [div_mul_div_comm]

theorem toRat_ofNat (n : Nat) : (Frac.ofNat n).toRat = n := by
  simp [Frac.ofNat, Frac.toRat]

theorem toRat_inv (a : Frac) : a.inv.toRat = a.toRat⁻¹ := by
  rw [Frac.inv]
  by_cases h : 0 < a.num
  · rw [dif_pos h, Frac.toRat, Frac.toRat, inv_div]
    congr 1
    exact_mod_cast congrArg (fun z : Int => (z : ℚ)) (Int.toNat_of_nonneg (le_of_lt h))
  · rw [dif_neg h]
    by_cases h2 : a.num < 0
    · rw [dif_pos h2, Frac.toRat, Frac.toRat, inv_div]
      have hcast : (((-a.num).toNat : Nat) : ℚ) = -((a.num : ℚ)) := by
        exact_mod_cast congrArg (fun z : Int => (z : ℚ))
          (Int.toNat_of_nonneg (by omega : (0 : Int) ≤ -a.num))
      rw [hcast]
      show (-(a.den : ℚ)) / (-(a.num : ℚ)) = _
      rw [neg_div_neg_eq]
    · have h3 : a.num = 0 := by omega
      rw [dif_neg h2, Frac.toRat, Frac.toRat, h3]
      simp

theorem toRat_div (a b : Frac) : (a.div b).toRat = a.toRat / b.toRat := by
  rw [Frac.div, toRat_mul, toRat_inv, division_def]

/-- The midpoint of `a` and `b` lies strictly between them when `a < b`. -/
theorem fmid_between {a b : Frac} (h : Frac.lt a b) :
    Frac.lt a ((a.add b).div (Frac.ofNat 2)) ∧
    Frac.lt ((a.add b).div (Frac.ofNat 2)) b := by
  rw [flt_iff] at h
  constructor
  · rw [flt_iff, toRat_div, toRat_add, toRat_ofNat]
    push_cast
    linarith
  · rw [flt_iff, toRat_div, toRat_add, toRat_ofNat]
    push_cast
    linarith

/-! ## Theorems -/

theorem feqv_symm {a b : Frac} (h : Frac.eqv a b) : Frac.eqv b a := by
  rw [feqv_iff] at h ⊢; exact h.symm

theorem mem_of_mem_dedupF {l : List Frac} {a : Frac} (h : a ∈ dedupF l) : a ∈ l := by
  induction l with
  | nil => simp [dedupF] at h
  | cons c cs ih =>
    simp only [dedupF] at h
    by_cases hc : (dedupF cs).any (fun b => decide (Frac.eqv c b))
    · rw [if_pos hc] at h
      exact List.mem_cons_of_mem _ (ih h)
    · rw [if_neg hc] at h
      rcases List.mem_cons.mp h with h | h
      · subst h; exact List.mem_cons_self _ _
      · exact List.mem_cons_of_mem _ (ih h)

theorem dedupF_pairwise (l : List Frac) :
    (dedupF l).Pairwise (fun a b => ¬ Frac.eqv a b) := by
  induction l with
  | nil => simp [dedupF]
  | cons c cs ih =>
    simp only [dedupF]
    by_cases hc : (dedupF cs).any (fun b => decide (Frac.eqv c b))
    · rw [if_pos hc]; exact ih
    · rw [if_neg hc]
      refine List.Pairwise.cons ?_ ih
      intro b hb
      simp only [List.any_eq_true, decide_eq_true_eq, not_exists, not_and] at hc
      exact hc b hb

/-- The distinct-value list of a feature is strictly ascending. -/
theorem featureValues_sorted_lt (M : FeatureMatrix) (R : List Nat) (f : Nat) :
    (featureValues M R f).Pairwise Frac.lt := by
  have hle : (featureValues M R f).Pairwise Frac.le :=
    List.sorted_insertionSort Frac.le _
  have hperm := List.perm_insertionSort Frac.le (dedupF (R.map (fun r => M.val r f)))
  have hne : (featureValues M R f).Pairwise (fun a b => ¬ Frac.eqv a b) := by
    rw [featureValues]
    exact (hperm.pairwise_iff (fun h h2 => h (feqv_symm h2))).mpr
      (dedupF_pairwise _)
  exact (hle.and hne).imp (fun h => flt_of_le_of_not_eqv h.1 h.2)

theorem mem_featureValues {M : FeatureMatrix} {R : List Nat} {f : Nat} {a : Frac}
    (h : a ∈ featureValues M R f) : ∃ r ∈ R, M.val r f = a := by
  have := (List.perm_insertionSort Frac.le (dedupF (R.map (fun r => M.val r f)))).mem_iff.mp h
  have := mem_of_mem_dedupF this
  simpa using this

/-- Every midpoint of a strictly ascending value list lies strictly between
two of its entries. -/
theorem midpoints_between {l : List Frac} (hs : l.Pairwise Frac.lt) {θ : Frac}
    (h : θ ∈ midpoints l) :
    (∃ a ∈ l, Frac.lt a θ) ∧ (∃ b ∈ l, Frac.lt θ b) := by
  induction l with
  | nil => simp [midpoints] at h
  | cons a tail ih =>
    cases tail with
    | nil => simp [midpoints] at h
    | cons b rest =>
      simp only [midpoints, List.mem_cons] at h
      have hab : Frac.lt a b := (List.pairwise_cons.mp hs).1 b (List.mem_cons_self _ _)
      rcases h with h | h
      · subst h
        obtain ⟨h1, h2⟩ := fmid_between hab
        exact ⟨⟨a, List.mem_cons_self _ _, h1⟩,
          ⟨b, List.mem_cons_of_mem _ (List.mem_cons_self _ _), h2⟩⟩
      · obtain ⟨⟨a2, ha2, hlt1⟩, ⟨b2, hb2, hlt2⟩⟩ := ih (List.pairwise_cons.mp hs).2 h
        exact ⟨⟨a2, List.mem_cons_of_mem _ ha2, hlt1⟩,
          ⟨b2, List.mem_cons_of_mem _ hb2, hlt2⟩⟩

/-- A candidate split sends at least one row of `R` to each side. -/
theorem candidate_sides {M : FeatureMatrix} {R F : List Nat} {f : Nat} {θ : Frac}
    (h : (f, θ) ∈ candidateSplits M R F) :
    (∃ r ∈ R, Frac.lt (M.val r f) θ) ∧ (∃ r ∈ R, Frac.le θ (M.val r f)) := by
  rw [candidateSplits, List.mem_flatMap] at h
  obtain ⟨f2, _, hmem⟩ := h
  rw [List.mem_map] at hmem
  obtain ⟨θ2, hθ2, heq⟩ := hmem
  have hf : f2 = f := congrArg Prod.fst heq
  have hθ : θ2 = θ := congrArg Prod.snd heq
  subst hf
  subst hθ
  rw [featureThresholds] at hθ2
  obtain ⟨⟨a, ha, hlt1⟩, ⟨b, hb, hlt2⟩⟩ :=
    midpoints_between (featureValues_sorted_lt M R f2) hθ2
  obtain ⟨r1, hr1, hv1⟩ := mem_featureValues ha
  obtain ⟨r2, hr2, hv2⟩ := mem_featureValues hb
  exact ⟨⟨r1, hr1, hv1 ▸ hlt1⟩, ⟨r2, hr2, fle_of_lt (hv2 ▸ hlt2)⟩⟩

theorem leftRows_length_lt {M : FeatureMatrix} {R : List Nat} {f : Nat} {θ : Frac}
    (h : ∃ r ∈ R, Frac.le θ (M.val r f)) :
    (leftRows M R f θ).length < R.length := by
  obtain ⟨r, hr, hv⟩ := h
  exact List.length_filter_lt_length_iff_exists.mpr
    ⟨r, hr, by simp [fnot_lt.mpr hv]⟩

theorem rightRows_length_lt {M : FeatureMatrix} {R : List Nat} {f : Nat} {θ : Frac}
    (h : ∃ r ∈ R, Frac.lt (M.val r f) θ) :
    (rightRows M R f θ).length < R.length := by
  obtain ⟨r, hr, hv⟩ := h
  refine List.length_filter_lt_length_iff_exists.mpr ⟨r, hr, ?_⟩
  simp only [decide_eq_true_eq]
  exact fnot_le.mpr hv

theorem pickBest_eq_none {α : Type} (w : α → Frac) (l : List α) :
    pickBest w l = none ↔ l = [] := by
  cases l with
  | nil => simp [pickBest]
  | cons c cs =>
    cases h : pickBest w cs with
    | none => simp [pickBest, h]
    | some b =>
      simp only [pickBest, h]
      constructor
      · intro h2
        split at h2 <;> cases h2
      · intro h2
        cases h2

theorem pickBest_spec {α : Type} (w : α → Frac) :
    ∀ (l : List α) (b : α), pickBest w l = some b →
      b ∈ l ∧ ∀ c ∈ l, Frac.le (w b) (w c) := by
  intro l
  induction l with
  | nil => intro b h; simp [pickBest] at h
  | cons c cs ih =>
    intro b h
    cases hcs : pickBest w cs with
    | none =>
      have hnil : cs = [] := (pickBest_eq_none w cs).mp hcs
      subst hnil
      simp only [pickBest] at h
      cases h
      exact ⟨List.mem_singleton.mpr rfl,
        by intro d hd; simp at hd; subst hd; exact fle_refl _⟩
    | some b2 =>
      simp only [pickBest, hcs] at h
      obtain ⟨hb2, hall⟩ := ih b2 hcs
      by_cases hw : Frac.lt (w b2) (w c)
      · rw [if_pos hw] at h
        cases h
        refine ⟨List.mem_cons_of_mem _ hb2, ?_⟩
        intro d hd
        rcases List.mem_cons.mp hd with hd | hd
        · subst hd; exact fle_of_lt hw
        · exact hall d hd
      · rw [if_neg hw] at h
        cases h
        refine ⟨List.mem_cons_self _ _, ?_⟩
        intro d hd
        rcases List.mem_cons.mp hd with hd | hd
        · subst hd; exact fle_refl _
        · exact fle_trans (fnot_lt.mp hw) (hall d hd)

theorem bestSplit_none_iff (crit : List Nat → Frac) (mss : Nat) (M : FeatureMatrix)
    (y : List Nat) (F R : List Nat) :
    bestSplit crit mss M y F R = none ↔
      (R.length < mss ∨ allSameLabel y R = true ∨
        ∀ c ∈ candidateSplits M R F,
          Frac.le (crit (labelsOf y R)) (weightedImpurity crit M y R c.1 c.2)) := by
  by_cases h1 : R.length < mss
  · simp [bestSplit, h1]
  · by_cases h2 : allSameLabel y R = true
    · simp [bestSplit, h1, h2]
    · unfold bestSplit
      rw [if_neg h1, if_neg h2]
      cases hp : pickBest (fun c => weightedImpurity crit M y R c.1 c.2)
          (candidateSplits M R F) with
      | none =>
        have hnil := (pickBest_eq_none _ _).mp hp
        simp [h1, h2, hnil]
      | some b =>
        obtain ⟨hmem, hmin⟩ := pickBest_spec _ _ _ hp
        show (if Frac.lt (weightedImpurity crit M y R b.1 b.2) (crit (labelsOf y R))
            then some b else none) = none ↔ _
        by_cases hw : Frac.lt (weightedImpurity crit M y R b.1 b.2) (crit (labelsOf y R))
        · rw [if_pos hw]
          constructor
          · intro h3; exact Option.noConfusion h3
          · intro h3
            rcases h3 with h3 | h3 | h3
            · exact absurd h3 h1
            · exact absurd h3 h2
            · exact absurd hw (fnot_lt.mpr (h3 b hmem))
        · rw [if_neg hw]
          refine iff_of_true rfl (Or.inr (Or.inr ?_))
          intro c hc
          exact fle_trans (fnot_lt.mp hw) (hmin c hc)

theorem bestSplit_some_spec (crit : List Nat → Frac) (mss : Nat) (M : FeatureMatrix)
    (y : List Nat) (F R : List Nat) (f : Nat) (θ : Frac)
    (h : bestSplit crit mss M y F R = some (f, θ)) :
    ¬ R.length < mss ∧ allSameLabel y R = false ∧
    (f, θ) ∈ candidateSplits M R F ∧
    Frac.lt (weightedImpurity crit M y R f θ) (crit (labelsOf y R)) ∧
    ∀ c ∈ candidateSplits M R F,
      Frac.le (weightedImpurity crit M y R f θ) (weightedImpurity crit M y R c.1 c.2) := by
  unfold bestSplit at h
  by_cases h1 : R.length < mss
  · rw [if_pos h1] at h; cases h
  · rw [if_neg h1] at h
    by_cases h2 : allSameLabel y R = true
    · rw [if_pos h2] at h; cases h
    · rw [if_neg h2] at h
      cases hp : pickBest (fun c => weightedImpurity crit M y R c.1 c.2)
          (candidateSplits M R F) with
      | none => rw [hp] at h; cases h
      | some b =>
        rw [hp] at h
        obtain ⟨hmem, hmin⟩ := pickBest_spec _ _ _ hp
        change (if Frac.lt (weightedImpurity crit M y R b.1 b.2) (crit (labelsOf y R))
          then some b else none) = some (f, θ) at h
        by_cases hw : Frac.lt (weightedImpurity crit M y R b.1 b.2) (crit (labelsOf y R))
        · rw [if_pos hw] at h
          cases h
          exact ⟨h1, Bool.eq_false_iff.mpr h2, hmem, hw, hmin⟩
        · rw [if_neg hw] at h; cases h

/-- C5: for every active row subset `R`, feature subset `F` and criterion,
the SplitFinder returns no split exactly when `R` has fewer than
`min_samples_split` rows, or all rows of `R` share one label, or no
candidate split lowers the weighted child impurity below the parent's;
otherwise it returns a candidate (feature, threshold) pair minimizing the
weighted child impurity — and on "no split" the caller (tree induction)
creates a Leaf. -/
theorem splitFinder_spec (crit : List Nat → Frac) (mss : Nat) (M : FeatureMatrix)
    (y : List Nat) (F R : List Nat) :
    (bestSplit crit mss M y F R = none ↔
      (R.length < mss ∨ allSameLabel y R = true ∨
        ∀ c ∈ candidateSplits M R F,
          Frac.le (crit (labelsOf y R)) (weightedImpurity crit M y R c.1 c.2))) ∧
    (∀ f θ, bestSplit crit mss M y F R = some (f, θ) →
      (f, θ) ∈ candidateSplits M R F ∧
      Frac.lt (weightedImpurity crit M y R f θ) (crit (labelsOf y R)) ∧
      ∀ c ∈ candidateSplits M R F,
        Frac.le (weightedImpurity crit M y R f θ)
          (weightedImpurity crit M y R c.1 c.2)) ∧
    (∀ p : TreeParams, ∀ g depth fuel R2,
      p.minSamplesSplit = mss →
      depthStop p.maxDepth depth = false →
      bestSplit crit mss M y (sampleFeatures g M.cols p.maxFeatures) R2 = none →
      buildAux crit p M y (fuel + 1) g depth R2 = .leaf (distOf y R2)) := by
  refine ⟨bestSplit_none_iff crit mss M y F R, ?_, ?_⟩
  · intro f θ h
    obtain ⟨_, _, hmem, hlt, hmin⟩ := bestSplit_some_spec crit mss M y F R f θ h
    exact ⟨hmem, hlt, hmin⟩
  · intro p g depth fuel R2 hm hd hn
    subst hm
    simp only [buildAux, hd, Bool.false_eq_true, if_false, hn]

/-- The spec's §8 scenario label vector. -/
def exLabels : List Nat := [0, 0, 1, 1]

/-- C5 witness: on the §8 scenario, the split finder returns the split
(feature 0, threshold 1/2), the theorem certifies its minimality, and a
pure two-row subset yields a leaf. -/
theorem splitFinder_spec_witness :
    (bestSplit gini 1 exScenario exLabels [0] [0, 1, 2, 3] = some (0, fhalf)) ∧
    ((0, fhalf) ∈ candidateSplits exScenario [0, 1, 2, 3] [0] ∧
      Frac.lt (weightedImpurity gini exScenario exLabels [0, 1, 2, 3] 0 fhalf)
        (gini (labelsOf exLabels [0, 1, 2, 3])) ∧
      ∀ c ∈ candidateSplits exScenario [0, 1, 2, 3] [0],
        Frac.le (weightedImpurity gini exScenario exLabels [0, 1, 2, 3] 0 fhalf)
          (weightedImpurity gini exScenario exLabels [0, 1, 2, 3] c.1 c.2)) ∧
    buildAux gini ⟨1, none, none, 0⟩ exScenario exLabels 1 0 0 [0, 1] =
      .leaf (distOf exLabels [0, 1]) :=
  ⟨by decide,
   (splitFinder_spec gini 1 exScenario exLabels [0] [0, 1, 2, 3]).2.1 0 fhalf (by decide),
   (splitFinder_spec gini 1 exScenario exLabels [0] [0, 1, 2, 3]).2.2
     ⟨1, none, none, 0⟩ 0 0 0 [0, 1] rfl rfl (by decide)⟩

/-- C1: for every feature matrix (dense or sparse) and every row-index
multiset `I` whose elements are all `< rows()`, `get_rows I` succeeds and
returns a matrix of the same variant with `rows() = I.length`, whose row `j`
equals the original matrix's row `I[j]` — duplicated indices giving
duplicated rows. -/
theorem getRows_multiset_spec (M : FeatureMatrix) (I : List Nat)
    (h : ∀ i ∈ I, i < M.rows) :
    ∃ M2, M.getRows I = .ok M2 ∧ M2.variant = M.variant ∧
      M2.rows = I.length ∧
      ∀ j, (hj : j < I.length) →
        M2.rowEntries j = M.rowEntries (I.get ⟨j, hj⟩) := by
  cases M with
  | dense m =>
    simp only [FeatureMatrix.rows] at h
    refine ⟨.dense ⟨I.map (fun i => m.data.getD i []), m.nCols⟩, ?_, rfl, ?_, ?_⟩
    · simp only [FeatureMatrix.getRows]
      rw [if_pos]
      simp only [List.all_eq_true, decide_eq_true_eq]
      exact h
    · simp [FeatureMatrix.rows]
    · intro j hj
      simp only [FeatureMatrix.rowEntries]
      rw [List.getD_eq_getElem _ _ (by simpa using hj), List.getElem_map]
      rfl
  | sparse m =>
    simp only [FeatureMatrix.rows] at h
    refine ⟨.sparse ⟨I.map (fun i => m.data.getD i []), m.nCols⟩, ?_, rfl, ?_, ?_⟩
    · simp only [FeatureMatrix.getRows]
      rw [if_pos]
      simp only [List.all_eq_true, decide_eq_true_eq]
      exact h
    · simp [FeatureMatrix.rows]
    · intro j hj
      simp only [FeatureMatrix.rowEntries]
      rw [List.getD_eq_getElem _ _ (by simpa using hj), List.getElem_map]
      rfl

/-- C1 witness: the theorem applied to a concrete dense matrix and the
duplicate-containing index multiset `[1, 0, 1]`. -/
theorem getRows_multiset_spec_witness :
    (∀ i ∈ [1, 0, 1], i < exDense.rows) ∧
    (∃ M2, exDense.getRows [1, 0, 1] = .ok M2 ∧ M2.variant = exDense.variant ∧
      M2.rows = [1, 0, 1].length ∧
      ∀ j, (hj : j < [1, 0, 1].length) →
        M2.rowEntries j = exDense.rowEntries ([1, 0, 1].get ⟨j, hj⟩)) :=
  ⟨by decide, getRows_multiset_spec exDense [1, 0, 1] (by decide)⟩

theorem length_nodesAt (t : BTree) : ∀ off, (nodesAt off t).length = sizeB t := by
  induction t with
  | leaf d => intro off; simp [nodesAt, sizeB]
  | split f θ l r ihl ihr =>
    intro off
    simp only [nodesAt, sizeB, List.length_append, List.length_singleton, ihl, ihr]

theorem sizeB_pos (t : BTree) : 0 < sizeB t := by
  cases t <;> simp [sizeB]

theorem getD_middle (a c b : List TreeNode) (n : TreeNode) :
    (a ++ (c ++ ([n] ++ b))).getD (a.length + c.length) (.leaf []) = n := by
  rw [List.getD_append_right _ _ _ _ (Nat.le_add_right _ _)]
  simp only [Nat.add_sub_cancel_left]
  rw [List.getD_append_right _ _ _ _ (le_refl c.length)]
  simp

theorem traverse_nodesAt (t : BTree) :
    ∀ (a b : List TreeNode) (fuel : Nat) (x : Nat → Frac), sizeB t ≤ fuel →
      traverseArena (a ++ (nodesAt a.length t ++ b)) fuel (a.length + sizeB t - 1) x
        = predB t x := by
  induction t with
  | leaf d =>
    intro a b fuel x hf
    cases fuel with
    | zero => simp [sizeB] at hf
    | succ fuel =>
      have hidx : a.length + sizeB (BTree.leaf d) - 1 = a.length + ([] : List TreeNode).length := by
        simp [sizeB]
      rw [hidx]
      show traverseArena (a ++ (([] : List TreeNode) ++ ([.leaf d] ++ b))) _ _ _ = _
      rw [traverseArena, getD_middle]
      rfl
  | split f θ l r ihl ihr =>
    intro a b fuel x hf
    cases fuel with
    | zero =>
      have := sizeB_pos (BTree.split f θ l r)
      omega
    | succ fuel =>
      have hsl := sizeB_pos l
      have hsr := sizeB_pos r
      have hfl : sizeB l ≤ fuel := by simp only [sizeB] at hf; omega
      have hfr : sizeB r ≤ fuel := by simp only [sizeB] at hf; omega
      have hidx : a.length + sizeB (BTree.split f θ l r) - 1 =
          a.length + (nodesAt a.length l ++ nodesAt (a.length + sizeB l) r).length := by
        simp only [sizeB, List.length_append, length_nodesAt]
        omega
      have harena : a ++ (nodesAt a.length (BTree.split f θ l r) ++ b) =
          a ++ ((nodesAt a.length l ++ nodesAt (a.length + sizeB l) r) ++
            ([TreeNode.split f θ (a.length + sizeB l - 1)
              (a.length + sizeB l + sizeB r - 1)] ++ b)) := by
        simp [nodesAt, List.append_assoc]
      rw [harena, hidx, traverseArena, getD_middle]
      show (if Frac.lt (x f) θ then _ else _) = predB (BTree.split f θ l r) x
      rw [predB]
      by_cases hc : Frac.lt (x f) θ
      · rw [if_pos hc, if_pos hc]
        have hmain := ihl a (nodesAt (a.length + sizeB l) r ++
          ([TreeNode.split f θ (a.length + sizeB l - 1)
            (a.length + sizeB l + sizeB r - 1)] ++ b)) fuel x hfl
        rw [← hmain]
        congr 1
        simp [List.append_assoc]
      · rw [if_neg hc, if_neg hc]
        have hmain := ihr (a ++ nodesAt a.length l)
          ([TreeNode.split f θ (a.length + sizeB l - 1)
            (a.length + sizeB l + sizeB r - 1)] ++ b) fuel x hfr
        have hal : (a ++ nodesAt a.length l).length = a.length + sizeB l := by
          simp [List.length_append, length_nodesAt]
        rw [hal] at hmain
        rw [← hmain]
        congr 1
        simp [List.append_assoc]

/-- Arena traversal of a laid-out tree agrees with structural prediction. -/
theorem treeFit_predictRow (p : TreeParams) (M : FeatureMatrix) (y : List Nat)
    (x : Nat → Frac) :
    (treeFit p M y).predictRow x = predB (treeFitB p M y) x := by
  rw [Tree.predictRow, treeFit]
  have hlen : (nodesAt 0 (treeFitB p M y)).length = sizeB (treeFitB p M y) :=
    length_nodesAt _ _
  have := traverse_nodesAt (treeFitB p M y) [] [] (sizeB (treeFitB p M y)) x (le_refl _)
  simp only [List.length_nil, List.nil_append, List.append_nil, Nat.zero_add] at this
  simpa [hlen] using this

theorem dedup_all_eq {l : List Nat} {c : Nat} (hne : l ≠ []) (h : ∀ a ∈ l, a = c) :
    l.dedup = [c] := by
  induction l with
  | nil => cases hne rfl
  | cons a rest ih =>
    have ha : a = c := h a (List.mem_cons_self _ _)
    by_cases hr : rest = []
    · subst hr; subst ha; simp
    · have hrest := ih hr (fun b hb => h b (List.mem_cons_of_mem _ hb))
      have hmem : a ∈ rest := by
        cases rest with
        | nil => cases hr rfl
        | cons b rb =>
          have hb : b = c := h b (List.mem_cons_of_mem _ (List.mem_cons_self _ _))
          rw [ha, ← hb]
          exact List.mem_cons_self _ _
      rw [List.dedup_cons_of_mem hmem, hrest]

/-- On a pure (single-label) row subset the leaf predicts that label. -/
theorem leafPred_allSame {y : List Nat} {R : List Nat} (hne : R ≠ [])
    (h : allSameLabel y R = true) :
    ∀ r ∈ R, leafPred (distOf y R) = y.getD r 0 := by
  cases R with
  | nil => cases hne rfl
  | cons r0 rest =>
    have hall : ∀ a ∈ labelsOf y (r0 :: rest), a = y.getD r0 0 := by
      intro a ha
      simp only [labelsOf, List.map_cons, List.mem_cons] at ha
      rcases ha with ha | ha
      · exact ha
      · simp only [allSameLabel, labelsOf, List.map_cons, List.all_eq_true, beq_iff_eq] at h
        obtain ⟨q, hq, hq2⟩ := List.mem_map.mp ha
        have := h (y.getD q 0) (List.mem_map_of_mem _ hq)
        rw [← hq2]
        exact this
    have hdedup : (labelsOf y (r0 :: rest)).dedup = [y.getD r0 0] :=
      dedup_all_eq (by simp [labelsOf]) hall
    intro r hr
    have hc : y.getD r 0 = y.getD r0 0 :=
      hall _ (List.mem_map_of_mem _ hr)
    rw [hc, distOf, hdedup]
    simp [List.insertionSort, List.orderedInsert, leafPred, bestClass]

/-- The memorization induction: with `min_samples_split = 1`, no depth
bound, the full feature set, and non-degenerate data, every training row
carried by a node is predicted with its own label by the subtree built for
that node. -/
theorem buildAux_memorize (M : FeatureMatrix) (y : List Nat)
    (hnd : nonDegenerateB M y = true) (p : TreeParams)
    (hmss : p.minSamplesSplit = 1) (hmd : p.maxDepth = none)
    (hmf : p.maxFeatures = none) :
    ∀ (fuel g depth : Nat) (R : List Nat), R ≠ [] → R.length ≤ fuel →
      List.Sublist R (List.range M.rows) →
      ∀ r ∈ R, predB (buildAux gini p M y fuel g depth R) (fun f => M.val r f)
        = y.getD r 0 := by
  intro fuel
  induction fuel with
  | zero =>
    intro g depth R hne hlen _ r _
    exact absurd (List.length_eq_zero.mp (Nat.le_zero.mp hlen)) hne
  | succ fuel ih =>
    intro g depth R hne hlen hsub r hr
    have hds : depthStop p.maxDepth depth = false := by rw [hmd]; rfl
    have hF : sampleFeatures g M.cols p.maxFeatures = List.range M.cols := by
      rw [hmf]; rfl
    cases hbs : bestSplit gini p.minSamplesSplit M y
        (sampleFeatures g M.cols p.maxFeatures) R with
    | none =>
      have hnds := List.all_eq_true.mp
        (by rw [nonDegenerateB] at hnd; exact hnd) R (List.mem_sublists.mpr hsub)
      simp only [Bool.or_eq_true] at hnds
      rcases hnds with (hempty | hsame) | hsome
      · exact absurd (List.isEmpty_iff.mp hempty) hne
      · simp only [buildAux, hds, Bool.false_eq_true, if_false, hbs]
        exact leafPred_allSame hne hsame r hr
      · rw [hmss, hF] at hbs
        rw [hbs] at hsome
        cases hsome
    | some fθ =>
      obtain ⟨f, θ⟩ := fθ
      have hspec := bestSplit_some_spec _ _ _ _ _ _ _ _ hbs
      have hsides := candidate_sides hspec.2.2.1
      simp only [buildAux, hds, Bool.false_eq_true, if_false, hbs]
      by_cases hr2 : Frac.lt (M.val r f) θ
      · rw [predB, if_pos hr2]
        refine ih (mixSeed g 1) (depth + 1) (leftRows M R f θ) ?_ ?_ ?_ r ?_
        · exact List.ne_nil_of_mem (List.mem_filter.mpr ⟨hr, by simp [hr2]⟩)
        · have := leftRows_length_lt (M := M) (R := R) (f := f) (θ := θ) hsides.2
          omega
        · exact (List.filter_sublist R).trans hsub
        · exact List.mem_filter.mpr ⟨hr, by simp [hr2]⟩
      · rw [predB, if_neg hr2]
        have hr3 : Frac.le θ (M.val r f) := fnot_lt.mp hr2
        refine ih (mixSeed g 2) (depth + 1) (rightRows M R f θ) ?_ ?_ ?_ r ?_
        · exact List.ne_nil_of_mem (List.mem_filter.mpr ⟨hr, by simp [hr3]⟩)
        · have := rightRows_length_lt (M := M) (R := R) (f := f) (θ := θ) hsides.1
          omega
        · exact (List.filter_sublist R).trans hsub
        · exact List.mem_filter.mpr ⟨hr, by simp [hr3]⟩

/-- C2: for every feature matrix (dense or sparse) and matching label
vector carrying non-degenerate data, fitting a DecisionTree with
`min_samples_split = 1`, no depth bound and the full feature set and then
predicting the same rows reproduces the labels exactly (perfect
memorization, spec §8). -/
theorem decisionTree_memorizes (p : TreeParams) (M : FeatureMatrix) (y : List Nat)
    (hmss : p.minSamplesSplit = 1) (hmd : p.maxDepth = none)
    (hmf : p.maxFeatures = none) (hlen : y.length = M.rows)
    (hnd : nonDegenerateB M y = true) :
    (treeFit p M y).predict M = .ok y := by
  rw [Tree.predict]
  rw [if_pos (show M.cols = (treeFit p M y).nCols from rfl)]
  congr 1
  refine List.ext_getElem (by simp [hlen]) ?_
  intro i hi hi2
  rw [List.getElem_map, List.getElem_range]
  rw [treeFit_predictRow]
  have hrows : 0 < M.rows := by
    simp at hi
    omega
  have hmem : i ∈ List.range M.rows := by
    rw [List.mem_range]
    simpa using hi
  have := buildAux_memorize M y hnd p hmss hmd hmf M.rows p.seed 0
    (List.range M.rows)
    (by simp [ne_eq, List.range_eq_nil]; omega) (by simp) (List.Sublist.refl _) i hmem
  rw [treeFitB]
  rw [this]
  exact List.getD_eq_getElem y 0 hi2

/-- C2 witness: the §8 scenario — 4 rows, labels `[0,0,1,1]` — is
non-degenerate, and the fitted tree reproduces the labels. -/
theorem decisionTree_memorizes_witness :
    ((⟨1, none, none, 0⟩ : TreeParams).minSamplesSplit = 1 ∧
      (⟨1, none, none, 0⟩ : TreeParams).maxDepth = none ∧
      (⟨1, none, none, 0⟩ : TreeParams).maxFeatures = none ∧
      exLabels.length = exScenario.rows ∧
      nonDegenerateB exScenario exLabels = true) ∧
    (treeFit ⟨1, none, none, 0⟩ exScenario exLabels).predict exScenario = .ok exLabels :=
  ⟨⟨rfl, rfl, rfl, rfl, by decide⟩,
   decisionTree_memorizes ⟨1, none, none, 0⟩ exScenario exLabels rfl rfl rfl rfl
     (by decide)⟩

theorem childRefs_append (a b : List TreeNode) :
    childRefs (a ++ b) = childRefs a ++ childRefs b := by
  simp [childRefs]

/-- Bounds and distinctness of the child references of a laid-out tree:
every reference points into the segment strictly below its root
`off + sizeB t - 1`, and no index is referenced twice. -/
theorem nodesAt_refs (t : BTree) : ∀ off,
    (∀ c ∈ childRefs (nodesAt off t), off ≤ c ∧ c < off + sizeB t - 1) ∧
    (childRefs (nodesAt off t)).Nodup := by
  induction t with
  | leaf d => intro off; simp [nodesAt, childRefs]
  | split f θ l r ihl ihr =>
    intro off
    have hsl := sizeB_pos l
    have hsr := sizeB_pos r
    obtain ⟨hbl, hnl⟩ := ihl off
    obtain ⟨hbr, hnr⟩ := ihr (off + sizeB l)
    have hrefs : childRefs (nodesAt off (BTree.split f θ l r)) =
        childRefs (nodesAt off l) ++ childRefs (nodesAt (off + sizeB l) r) ++
        [off + sizeB l - 1, off + sizeB l + sizeB r - 1] := by
      rw [nodesAt, childRefs_append, childRefs_append]
      simp [childRefs]
    rw [hrefs]
    constructor
    · intro c hc
      simp only [List.mem_append, List.mem_cons, List.mem_singleton] at hc
      rcases hc with (hc | hc) | hc | hc
      · have := hbl c hc
        simp only [sizeB]
        omega
      · have := hbr c hc
        simp only [sizeB]
        omega
      · subst hc; simp only [sizeB]; omega
      · rcases hc with hc | hc
        · subst hc; simp only [sizeB]; omega
        · cases hc
    · have h2 : ([off + sizeB l - 1, off + sizeB l + sizeB r - 1] : List Nat).Nodup := by
        refine List.nodup_cons.mpr ⟨?_, List.nodup_singleton _⟩
        simp only [List.mem_singleton]
        omega
      refine List.Nodup.append (List.Nodup.append hnl hnr ?_) h2 ?_
      · intro c hcl hcr
        have h3 := hbl c hcl
        have h4 := hbr c hcr
        omega
      · intro c hc hc2
        simp only [List.mem_cons, List.mem_singleton] at hc2
        rcases List.mem_append.mp hc with hcl | hcr
        · have h3 := hbl c hcl
          rcases hc2 with hc2 | hc2 | hc2
          · omega
          · omega
          · cases hc2
        · have h3 := hbr c hcr
          rcases hc2 with hc2 | hc2 | hc2
          · omega
          · omega
          · cases hc2

/-- Each Split node of a laid-out tree points only at strictly smaller
arena indices within its own segment, and its two children differ. -/
theorem nodesAt_children_bound (t : BTree) : ∀ off i f θ l r,
    (nodesAt off t).getD i (.leaf []) = .split f θ l r → i < sizeB t →
    off ≤ l ∧ l < off + i ∧ off ≤ r ∧ r < off + i ∧ l ≠ r := by
  induction t with
  | leaf d =>
    intro off i f θ l r h hi
    simp only [sizeB] at hi
    have hi0 : i = 0 := by omega
    subst hi0
    simp only [nodesAt] at h
    cases h
  | split f0 θ0 tl tr ihl ihr =>
    intro off i f θ l r h hi
    have hsl := sizeB_pos tl
    have hsr := sizeB_pos tr
    simp only [sizeB] at hi
    rw [nodesAt] at h
    by_cases h1 : i < sizeB tl
    · rw [List.append_assoc, List.getD_append _ _ _ _ (by rw [length_nodesAt]; exact h1)] at h
      exact ihl off i f θ l r h h1
    · by_cases h2 : i < sizeB tl + sizeB tr
      · rw [List.append_assoc, List.getD_append_right _ _ _ _
          (by rw [length_nodesAt]; omega)] at h
        rw [length_nodesAt] at h
        rw [List.getD_append _ _ _ _ (by rw [length_nodesAt]; omega)] at h
        obtain ⟨a1, a2, a3, a4, a5⟩ := ihr (off + sizeB tl) (i - sizeB tl) f θ l r h (by omega)
        exact ⟨by omega, by omega, by omega, by omega, a5⟩
      · have hieq : i = sizeB tl + sizeB tr := by omega
        subst hieq
        rw [List.getD_append_right _ _ _ _
          (by simp only [List.length_append, length_nodesAt]; omega)] at h
        simp only [List.length_append, length_nodesAt] at h
        have : sizeB tl + sizeB tr - (sizeB tl + sizeB tr) = 0 := by omega
        rw [this] at h
        simp only [List.getD_cons_zero] at h
        cases h
        refine ⟨by omega, by omega, by omega, by omega, by omega⟩

/-- C6: in the arena of every tree produced by `DecisionTree.fit`, each
node is a Leaf (no children) or a Split (exactly two child indices); every
Split's children are strictly smaller indices (so the parent→child relation
is well-founded — the arena has no cycles); no index is referenced as a
child by more than one parent (and the root by none); and the root is the
last arena slot.  The model is a pure value, so the structure is immutable
after induction by construction. -/
theorem tree_arena_invariants (p : TreeParams) (M : FeatureMatrix) (y : List Nat) :
    (treeFit p M y).arena ≠ [] ∧
    (treeFit p M y).root = (treeFit p M y).arena.length - 1 ∧
    (∀ n ∈ (treeFit p M y).arena,
      (∃ d, n = TreeNode.leaf d) ∨ (∃ f θ l r, n = TreeNode.split f θ l r)) ∧
    (∀ i f θ l r, (treeFit p M y).arena.getD i (.leaf []) = .split f θ l r →
      l < i ∧ r < i ∧ l ≠ r) ∧
    (∀ c ∈ childRefs (treeFit p M y).arena, c < (treeFit p M y).root) ∧
    (childRefs (treeFit p M y).arena).Nodup := by
  have hlen : (treeFit p M y).arena.length = sizeB (treeFitB p M y) :=
    length_nodesAt _ _
  have hroot : (treeFit p M y).root = sizeB (treeFitB p M y) - 1 := rfl
  refine ⟨?_, ?_, ?_, ?_, ?_, ?_⟩
  · intro hcon
    have := sizeB_pos (treeFitB p M y)
    rw [← hlen] at this
    rw [hcon] at this
    simp at this
  · rw [hroot, hlen]
  · intro n _
    cases n with
    | leaf d => exact Or.inl ⟨d, rfl⟩
    | split f θ l r => exact Or.inr ⟨f, θ, l, r, rfl⟩
  · intro i f θ l r h
    by_cases hi : i < sizeB (treeFitB p M y)
    · obtain ⟨a1, a2, a3, a4, a5⟩ := nodesAt_children_bound (treeFitB p M y) 0 i f θ l r h hi
      exact ⟨by omega, by omega, a5⟩
    · rw [List.getD_eq_default] at h
      · cases h
      · rw [hlen]
        omega
  · intro c hc
    have := (nodesAt_refs (treeFitB p M y) 0).1 c hc
    rw [hroot]
    omega
  · exact (nodesAt_refs (treeFitB p M y) 0).2

/-- C7 counterexample: the claim says a zero-row training matrix makes
`RandomForest.fit` fail with a configuration error, but the error taxonomy
(§7) and the boundary property (§8) both assign InsufficientDataError to a
zero-row matrix, and the model follows them: with `n_trees = 1` and an
empty matrix, fit returns InsufficientDataError, which is not
ConfigurationError. -/
theorem forestFit_zero_rows_not_config :
    forestFit ⟨1, none, none, 1, 0⟩ (.dense ⟨[], 1⟩) [] = .error .insufficientData ∧
    MLError.insufficientData ≠ MLError.configuration :=
  ⟨rfl, by decide⟩

/-- C7 (amended): `RandomForest.fit` fails with ConfigurationError when
`n_trees = 0`, with InsufficientDataError when the training matrix has zero
rows, and a failed fit exposes no model. -/
theorem forestFit_failure_spec (p : ForestParams) (M : FeatureMatrix) (y : List Nat) :
    (p.nTrees = 0 → forestFit p M y = .error .configuration) ∧
    (p.nTrees ≠ 0 → M.rows = 0 → forestFit p M y = .error .insufficientData) ∧
    (∀ e, forestFit p M y = .error e → ∀ fo, forestFit p M y ≠ .ok fo) := by
  refine ⟨?_, ?_, ?_⟩
  · intro h
    simp [forestFit, h]
  · intro h1 h2
    simp [forestFit, h1, h2]
  · intro e he fo hfo
    rw [he] at hfo
    cases hfo

/-- C7 witness: the amended theorem applied at `n_trees = 0` on a 2-row
matrix and at `n_trees = 1` on an empty matrix. -/
theorem forestFit_failure_spec_witness :
    forestFit ⟨1, none, none, 0, 0⟩ exDense [0, 1] = .error .configuration ∧
    forestFit ⟨1, none, none, 1, 0⟩ (.dense ⟨[], 1⟩) [] = .error .insufficientData ∧
    ∀ fo, forestFit ⟨1, none, none, 0, 0⟩ exDense [0, 1] ≠ .ok fo :=
  ⟨(forestFit_failure_spec ⟨1, none, none, 0, 0⟩ exDense [0, 1]).1 rfl,
   (forestFit_failure_spec ⟨1, none, none, 1, 0⟩ (.dense ⟨[], 1⟩) []).2.1
     (by decide) rfl,
   (forestFit_failure_spec ⟨1, none, none, 0, 0⟩ exDense [0, 1]).2.2
     .configuration
     ((forestFit_failure_spec ⟨1, none, none, 0, 0⟩ exDense [0, 1]).1 rfl)⟩

theorem lookup_map_index (f : Nat → Tree) :
    ∀ (L : List Nat) (i : Nat), i ∈ L →
      (L.map (fun j => (j, f j))).lookup i = some (f i) := by
  intro L
  induction L with
  | nil => intro i hi; cases hi
  | cons j L ih =>
    intro i hi
    by_cases hj : i = j
    · subst hj
      simp [List.lookup]
    · have hi2 : i ∈ L := by
        rcases List.mem_cons.mp hi with h | h
        · exact absurd h hj
        · exact h
      simp only [List.map_cons, List.lookup]
      rw [show (i == j) = false from beq_eq_false_iff_ne.mpr hj]
      exact ih i hi2

/-- Merging index-keyed worker results in any completion order that covers
all indices reproduces the sequential tree sequence. -/
theorem mergeByIndex_perm (f : Nat → Tree) (n : Nat) (order : List Nat)
    (hperm : order.Perm (List.range n)) :
    mergeByIndex n (order.map (fun i => (i, f i))) = (List.range n).map f := by
  rw [mergeByIndex]
  refine List.map_congr_left ?_
  intro i hi
  have hio : i ∈ order := hperm.mem_iff.mpr hi
  rw [lookup_map_index f order i hio]
  rfl

/-- C4: with a fixed seed on a fixed input, the parallel fork-join fit
produces a Forest bit-identical to the sequential fit for every worker
completion order, and hence identical predictions; aggregation depends only
on the fixed tree indices the contributions are keyed by, never on arrival
order.  (Fit is a pure function of (params, data), so any two runs with the
same seed agree by reflexivity; the content is order-independence.) -/
theorem forest_parallel_deterministic (p : ForestParams) (M : FeatureMatrix)
    (y : List Nat) (order : List Nat)
    (hperm : order.Perm (List.range p.nTrees)) :
    forestFitPar p M y order = forestFit p M y ∧
    ∀ X, (forestFitPar p M y order).map (fun fo => fo.predict X) =
      (forestFit p M y).map (fun fo => fo.predict X) := by
  have hmain : forestFitPar p M y order = forestFit p M y := by
    rw [forestFitPar, forestFit]
    by_cases h1 : p.nTrees = 0
    · simp [h1]
    · rw [if_neg h1, if_neg h1]
      by_cases h2 : M.rows = 0
      · simp [h2]
      · rw [if_neg h2, if_neg h2]
        by_cases h3 : y.length ≠ M.rows
        · simp [h3]
        · rw [if_neg h3, if_neg h3]
          rw [parResults, mergeByIndex_perm (fitOneTree p M y) p.nTrees order hperm]
  exact ⟨hmain, fun X => by rw [hmain]⟩

/-- C4 witness: a two-tree forest with the workers finishing in reversed
order `[1, 0]` merges to the sequential forest. -/
theorem forest_parallel_deterministic_witness :
    forestFitPar ⟨1, none, none, 2, 0⟩ exDense [0, 1] [1, 0] =
      forestFit ⟨1, none, none, 2, 0⟩ exDense [0, 1] ∧
    ∀ X, (forestFitPar ⟨1, none, none, 2, 0⟩ exDense [0, 1] [1, 0]).map
        (fun fo => fo.predict X) =
      (forestFit ⟨1, none, none, 2, 0⟩ exDense [0, 1]).map (fun fo => fo.predict X) :=
  forest_parallel_deterministic ⟨1, none, none, 2, 0⟩ exDense [0, 1] [1, 0] (by decide)

theorem getRowsTotal_cols (M : FeatureMatrix) (idx : List Nat) :
    (M.getRowsTotal idx).cols = M.cols := by
  cases M <;> rfl

/-- Sampling as many elements as the pool holds yields a permutation. -/
theorem sampleIdxAux_perm :
    ∀ (k : Nat) (pool : List Nat) (g : Nat), k = pool.length →
      (sampleIdxAux g pool k).Perm pool := by
  intro k
  induction k with
  | zero =>
    intro pool g h
    cases pool with
    | nil => simp [sampleIdxAux]
    | cons a rest => simp at h
  | succ k ih =>
    intro pool g h
    cases pool with
    | nil => simp at h
    | cons a rest =>
      simp only [sampleIdxAux]
      have hjlt : g % (a :: rest).length < (a :: rest).length :=
        Nat.mod_lt _ (by simp)
      have hlen2 : k = ((a :: rest).eraseIdx (g % (a :: rest).length)).length := by
        rw [List.eraseIdx_eq_take_drop_succ, List.length_append, List.length_take,
          List.length_drop]
        simp only [List.length_cons] at h hjlt ⊢
        omega
      have hperm2 := ih _ (lcgNext g) hlen2
      have hget : (a :: rest).getD (g % (a :: rest).length) 0 =
          (a :: rest)[g % (a :: rest).length] :=
        List.getD_eq_getElem _ _ hjlt
      have hmid : ((a :: rest)[g % (a :: rest).length] ::
          (a :: rest).eraseIdx (g % (a :: rest).length)).Perm (a :: rest) := by
        rw [List.eraseIdx_eq_take_drop_succ]
        conv_rhs => rw [← List.take_append_drop (g % (a :: rest).length) (a :: rest)]
        conv_rhs => rw [List.drop_eq_getElem_cons hjlt]
        exact List.perm_middle.symm
      rw [hget]
      exact (hperm2.cons _).trans hmid

/-- Sampling `n` features out of `n` and sorting gives the full feature
range, whatever the random stream. -/
theorem sampleFeatures_full (g n : Nat) :
    sampleFeatures g n (some n) = List.range n := by
  rw [sampleFeatures]
  have hperm : (sampleIdxAux g (List.range n) n).Perm (List.range n) :=
    sampleIdxAux_perm n (List.range n) g (by simp)
  exact List.eq_of_perm_of_sorted
    ((List.perm_insertionSort _ _).trans hperm)
    (List.sorted_insertionSort _ _)
    (List.pairwise_le_range n)

/-- With `max_features` equal to the full column count, induction is plain
CART: every split evaluation scans all features in ascending order, so the
random stream (and hence the seed) does not influence the tree. -/
theorem buildAux_full_features (crit : List Nat → Frac) (M : FeatureMatrix)
    (y : List Nat) (p p2 : TreeParams)
    (hmss : p.minSamplesSplit = p2.minSamplesSplit)
    (hmd : p.maxDepth = p2.maxDepth)
    (hmf : p.maxFeatures = some M.cols) (hmf2 : p2.maxFeatures = some M.cols) :
    ∀ (fuel g g2 depth : Nat) (R : List Nat),
      buildAux crit p M y fuel g depth R = buildAux crit p2 M y fuel g2 depth R := by
  intro fuel
  induction fuel with
  | zero => intro g g2 depth R; rfl
  | succ fuel ih =>
    intro g g2 depth R
    have hF : sampleFeatures g M.cols p.maxFeatures =
        sampleFeatures g2 M.cols p2.maxFeatures := by
      rw [hmf, hmf2, sampleFeatures_full, sampleFeatures_full]
    simp only [buildAux, hmd, hmss, hF]
    by_cases hds : depthStop p2.maxDepth depth = true
    · rw [if_pos hds, if_pos hds]
    · rw [if_neg hds, if_neg hds]
      cases hbs : bestSplit crit p2.minSamplesSplit M y
          (sampleFeatures g2 M.cols p2.maxFeatures) R with
      | none => rfl
      | some fθ =>
        obtain ⟨f, θ⟩ := fθ
        show BTree.split f θ
            (buildAux crit p M y fuel (mixSeed g 1) (depth + 1) (leftRows M R f θ))
            (buildAux crit p M y fuel (mixSeed g 2) (depth + 1) (rightRows M R f θ)) =
          BTree.split f θ
            (buildAux crit p2 M y fuel (mixSeed g2 1) (depth + 1) (leftRows M R f θ))
            (buildAux crit p2 M y fuel (mixSeed g2 2) (depth + 1) (rightRows M R f θ))
        rw [ih (mixSeed g 1) (mixSeed g2 1) (depth + 1) (leftRows M R f θ),
          ih (mixSeed g 2) (mixSeed g2 2) (depth + 1) (rightRows M R f θ)]

theorem treeFit_full_features (M : FeatureMatrix) (y : List Nat) (p p2 : TreeParams)
    (hmss : p.minSamplesSplit = p2.minSamplesSplit)
    (hmd : p.maxDepth = p2.maxDepth)
    (hmf : p.maxFeatures = some M.cols) (hmf2 : p2.maxFeatures = some M.cols) :
    treeFit p M y = treeFit p2 M y := by
  have hB : treeFitB p M y = treeFitB p2 M y := by
    rw [treeFitB, treeFitB]
    exact buildAux_full_features gini M y p p2 hmss hmd hmf hmf2
      M.rows p.seed p2.seed 0 (List.range M.rows)
  rw [treeFit, treeFit, hB]

/-- A majority vote over a single prediction is that prediction. -/
theorem majorityVote_single (c : Nat) : majorityVote [c] = c := by
  rw [majorityVote, tallyVotes]
  rw [show ([c] : List Nat).dedup = [c] from by simp]
  rw [show List.insertionSort (· ≤ ·) [c] = [c] from by
    simp [List.insertionSort, List.orderedInsert]]
  simp [leafPred, bestClass]

/-- C3: a RandomForest of a single tree with `max_features` equal to the
full column count fits successfully (given usable data) and predicts, on
every input matrix, exactly as a single DecisionTree with the same
hyperparameters — any seed — fitted on the same bootstrap sample (the
bagged rows of worker 0). -/
theorem randomForest_singleton_refines_tree (p : ForestParams) (M : FeatureMatrix)
    (y : List Nat) (hn : p.nTrees = 1) (hmf : p.maxFeatures = some M.cols)
    (hrows : M.rows ≠ 0) (hlen : y.length = M.rows) :
    ∃ fo, forestFit p M y = .ok fo ∧
      fo.trees = [fitOneTree p M y 0] ∧
      ∀ (s : Nat) (X : FeatureMatrix),
        fo.predict X =
          (treeFit ⟨p.minSamplesSplit, p.maxDepth, p.maxFeatures, s⟩
            (M.getRowsTotal (bootstrapIdx p M 0))
            (labelsGather y (bootstrapIdx p M 0))).predict X := by
  refine ⟨⟨[fitOneTree p M y 0], M.cols⟩, ?_, rfl, ?_⟩
  · rw [forestFit, if_neg (by rw [hn]; exact one_ne_zero), if_neg hrows,
      if_neg (by rw [hlen]; exact fun hcon => hcon rfl), hn]
    rfl
  · intro s X
    have hcols : (M.getRowsTotal (bootstrapIdx p M 0)).cols = M.cols :=
      getRowsTotal_cols M _
    have htree : fitOneTree p M y 0 =
        treeFit ⟨p.minSamplesSplit, p.maxDepth, p.maxFeatures, s⟩
          (M.getRowsTotal (bootstrapIdx p M 0))
          (labelsGather y (bootstrapIdx p M 0)) := by
      rw [fitOneTree]
      exact treeFit_full_features _ _ _ _ rfl rfl
        (by rw [hcols]; exact hmf) (by rw [hcols]; exact hmf)
    rw [Forest.predict, Tree.predict]
    by_cases hx : X.cols = M.cols
    · rw [if_pos (show X.cols = Forest.nCols ⟨[fitOneTree p M y 0], M.cols⟩ from hx),
        if_pos (show X.cols = _ from by
          show X.cols = (M.getRowsTotal (bootstrapIdx p M 0)).cols
          rw [hcols]
          exact hx)]
      refine congrArg Except.ok (List.map_congr_left ?_)
      intro i _
      rw [Forest.predictRow]
      show majorityVote [(fitOneTree p M y 0).predictRow (fun f => X.val i f)] = _
      rw [majorityVote_single, htree]
    · rw [if_neg (show ¬ X.cols = Forest.nCols ⟨[fitOneTree p M y 0], M.cols⟩ from hx),
        if_neg (show ¬ X.cols = _ from by
          show ¬ X.cols = (M.getRowsTotal (bootstrapIdx p M 0)).cols
          rw [hcols]
          exact hx)]

/-- C3 witness: a one-tree forest on the 2-row matrix, `max_features = 1 =`
column count, compared against the seed-0 and arbitrary-seed single tree. -/
theorem randomForest_singleton_refines_tree_witness :
    ((⟨1, none, some 1, 1, 0⟩ : ForestParams).nTrees = 1 ∧
      (⟨1, none, some 1, 1, 0⟩ : ForestParams).maxFeatures = some exDense.cols ∧
      exDense.rows ≠ 0 ∧ ([0, 1] : List Nat).length = exDense.rows) ∧
    ∃ fo, forestFit ⟨1, none, some 1, 1, 0⟩ exDense [0, 1] = .ok fo ∧
      fo.trees = [fitOneTree ⟨1, none, some 1, 1, 0⟩ exDense [0, 1] 0] ∧
      ∀ (s : Nat) (X : FeatureMatrix),
        fo.predict X =
          (treeFit ⟨1, none, some 1, s⟩
            (exDense.getRowsTotal (bootstrapIdx ⟨1, none, some 1, 1, 0⟩ exDense 0))
            (labelsGather [0, 1] (bootstrapIdx ⟨1, none, some 1, 1, 0⟩ exDense 0))).predict X :=
  ⟨⟨rfl, rfl, by decide, rfl⟩,
   randomForest_singleton_refines_tree ⟨1, none, some 1, 1, 0⟩ exDense [0, 1]
     rfl rfl (by decide) rfl⟩

/-- C8: predict fails with a shape error exactly when the input's column
count differs from the training matrix's column count — for a fitted forest
and for a fitted tree — and a `get_rows` request containing an index
`≥ rows()` fails with an index-out-of-range error. -/
theorem predict_shape_spec :
    (∀ (p : ForestParams) (M : FeatureMatrix) (y : List Nat) (fo : Forest),
      forestFit p M y = .ok fo →
      ∀ X : FeatureMatrix,
        (fo.predict X = .error .shape ↔ X.cols ≠ M.cols) ∧
        (X.cols = M.cols → ∃ out, fo.predict X = .ok out)) ∧
    (∀ (p : TreeParams) (M : FeatureMatrix) (y : List Nat) (X : FeatureMatrix),
      ((treeFit p M y).predict X = .error .shape ↔ X.cols ≠ M.cols) ∧
      (X.cols = M.cols → ∃ out, (treeFit p M y).predict X = .ok out)) ∧
    (∀ (M : FeatureMatrix) (I : List Nat),
      (∃ i ∈ I, M.rows ≤ i) → M.getRows I = .error .indexOutOfRange) := by
  refine ⟨?_, ?_, ?_⟩
  · intro p M y fo hfo X
    have hcols : fo.nCols = M.cols := by
      rw [forestFit] at hfo
      by_cases h1 : p.nTrees = 0
      · rw [if_pos h1] at hfo; cases hfo
      · rw [if_neg h1] at hfo
        by_cases h2 : M.rows = 0
        · rw [if_pos h2] at hfo; cases hfo
        · rw [if_neg h2] at hfo
          by_cases h3 : y.length ≠ M.rows
          · rw [if_pos h3] at hfo; cases hfo
          · rw [if_neg h3] at hfo
            cases hfo
            rfl
    constructor
    · rw [Forest.predict, hcols]
      by_cases hx : X.cols = M.cols
      · rw [if_pos hx]
        constructor
        · intro hcon; cases hcon
        · intro hcon; exact absurd hx hcon
      · rw [if_neg hx]
        exact iff_of_true rfl hx
    · intro hx
      rw [Forest.predict, hcols, if_pos hx]
      exact ⟨_, rfl⟩
  · intro p M y X
    have hcols : (treeFit p M y).nCols = M.cols := rfl
    constructor
    · rw [Tree.predict, hcols]
      by_cases hx : X.cols = M.cols
      · rw [if_pos hx]
        constructor
        · intro hcon; cases hcon
        · intro hcon; exact absurd hx hcon
      · rw [if_neg hx]
        exact iff_of_true rfl hx
    · intro hx
      rw [Tree.predict, hcols, if_pos hx]
      exact ⟨_, rfl⟩
  · intro M I hbad
    obtain ⟨i, hi, hge⟩ := hbad
    cases M with
    | dense m =>
      simp only [FeatureMatrix.rows] at hge
      simp only [FeatureMatrix.getRows]
      rw [if_neg]
      intro hall
      have := List.all_eq_true.mp hall i hi
      simp only [decide_eq_true_eq] at this
      omega
    | sparse m =>
      simp only [FeatureMatrix.rows] at hge
      simp only [FeatureMatrix.getRows]
      rw [if_neg]
      intro hall
      have := List.all_eq_true.mp hall i hi
      simp only [decide_eq_true_eq] at this
      omega

/-- C8 witness: a one-tree forest and a tree fitted on the 1-column matrix
reject a 2-column input with a shape error yet accept a matching one, and
`get_rows [5]` on a 2-row matrix fails with an index error. -/
theorem predict_shape_spec_witness :
    (∃ fo, forestFit ⟨1, none, none, 1, 0⟩ exDense [0, 1] = .ok fo ∧
      (fo.predict exWide = .error .shape ↔ exWide.cols ≠ exDense.cols) ∧
      (exWide.cols = exDense.cols → ∃ out, fo.predict exWide = .ok out)) ∧
    ((treeFit ⟨1, none, none, 0⟩ exDense [0, 1]).predict exWide = .error .shape ↔
      exWide.cols ≠ exDense.cols) ∧
    exDense.getRows [5] = .error .indexOutOfRange :=
  ⟨⟨⟨[fitOneTree ⟨1, none, none, 1, 0⟩ exDense [0, 1] 0], 1⟩, rfl,
    (predict_shape_spec.1 ⟨1, none, none, 1, 0⟩ exDense [0, 1]
      ⟨[fitOneTree ⟨1, none, none, 1, 0⟩ exDense [0, 1] 0], 1⟩ rfl exWide).1,
    (predict_shape_spec.1 ⟨1, none, none, 1, 0⟩ exDense [0, 1]
      ⟨[fitOneTree ⟨1, none, none, 1, 0⟩ exDense [0, 1] 0], 1⟩ rfl exWide).2⟩,
   (predict_shape_spec.2.1 ⟨1, none, none, 0⟩ exDense [0, 1] exWide).1,
   predict_shape_spec.2.2 exDense [5] ⟨5, by decide, by decide⟩⟩

theorem zip_map_self {α β : Type} (g : α → β) (l : List α) :
    l.zip (l.map g) = l.map (fun a => (a, g a)) := by
  induction l with
  | nil => rfl
  | cons a t ih => simp [ih]

/-- `goArgmax` keeps the first maximum: starting from champion `c0`, over a
strictly ascending class list whose classes all exceed `c0`, it either
keeps `c0` (when nothing beats its score) or returns a strictly better
class that no earlier class matches. -/
theorem goArgmax_spec (sc : Nat → Frac) :
    ∀ (cs : List Nat) (c0 : Nat),
      cs.Pairwise (· < ·) → (∀ c ∈ cs, c0 < c) →
      (goArgmax c0 (sc c0) (cs.map (fun c => (c, sc c))) = c0 ∧
        ∀ c ∈ cs, Frac.le (sc c) (sc c0)) ∨
      (goArgmax c0 (sc c0) (cs.map (fun c => (c, sc c))) ∈ cs ∧
        Frac.lt (sc c0) (sc (goArgmax c0 (sc c0) (cs.map (fun c => (c, sc c))))) ∧
        (∀ c ∈ cs, Frac.le (sc c)
          (sc (goArgmax c0 (sc c0) (cs.map (fun c => (c, sc c)))))) ∧
        (∀ c ∈ cs, Frac.le (sc (goArgmax c0 (sc c0) (cs.map (fun c => (c, sc c)))))
            (sc c) →
          goArgmax c0 (sc c0) (cs.map (fun c => (c, sc c))) ≤ c)) := by
  intro cs
  induction cs with
  | nil =>
    intro c0 _ _
    exact Or.inl ⟨rfl, by simp⟩
  | cons c1 rest ih =>
    intro c0 hsort hgt
    simp only [List.map_cons, goArgmax]
    have hsort2 := (List.pairwise_cons.mp hsort).2
    have hgt2 : ∀ c ∈ rest, c1 < c := (List.pairwise_cons.mp hsort).1
    by_cases hlt : Frac.lt (sc c0) (sc c1)
    · rw [if_pos hlt]
      rcases ih c1 hsort2 hgt2 with ⟨heq, hmax⟩ | ⟨hmem, hstrict, hmax, hties⟩
      · right
        rw [heq]
        refine ⟨List.mem_cons_self _ _, hlt, ?_, ?_⟩
        · intro c hc
          rcases List.mem_cons.mp hc with hc | hc
          · subst hc; exact fle_refl _
          · exact hmax c hc
        · intro c hc _
          rcases List.mem_cons.mp hc with hc | hc
          · subst hc; exact Nat.le_refl _
          · exact Nat.le_of_lt (hgt2 c hc)
      · right
        refine ⟨List.mem_cons_of_mem _ hmem, flt_trans hlt hstrict, ?_, ?_⟩
        · intro c hc
          rcases List.mem_cons.mp hc with hc | hc
          · subst hc; exact fle_of_lt hstrict
          · exact hmax c hc
        · intro c hc hle
          rcases List.mem_cons.mp hc with hc | hc
          · subst hc; exact absurd hle (fnot_le.mpr hstrict)
          · exact hties c hc hle
    · rw [if_neg hlt]
      have hle1 : Frac.le (sc c1) (sc c0) := fnot_lt.mp hlt
      have hgt3 : ∀ c ∈ rest, c0 < c := fun c hc => hgt c (List.mem_cons_of_mem _ hc)
      rcases ih c0 hsort2 hgt3 with ⟨heq, hmax⟩ | ⟨hmem, hstrict, hmax, hties⟩
      · left
        refine ⟨heq, ?_⟩
        intro c hc
        rcases List.mem_cons.mp hc with hc | hc
        · subst hc; exact hle1
        · exact hmax c hc
      · right
        refine ⟨List.mem_cons_of_mem _ hmem, hstrict, ?_, ?_⟩
        · intro c hc
          rcases List.mem_cons.mp hc with hc | hc
          · subst hc; exact fle_trans hle1 (fle_of_lt hstrict)
          · exact hmax c hc
        · intro c hc hle
          rcases List.mem_cons.mp hc with hc | hc
          · subst hc; exact absurd (fle_trans hle hle1) (fnot_le.mpr hstrict)
          · exact hties c hc hle

/-- Arg-max over a strictly ascending scored class list: the result is one
of the classes, its score dominates all, and on score ties it is the
lowest class. -/
theorem argmax_lowest (sc : Nat → Frac) (cs : List Nat) (hne : cs ≠ [])
    (hsort : cs.Pairwise (· < ·)) :
    argmaxClass (cs.map (fun c => (c, sc c))) ∈ cs ∧
    (∀ c ∈ cs, Frac.le (sc c) (sc (argmaxClass (cs.map (fun c => (c, sc c)))))) ∧
    (∀ c ∈ cs, Frac.le (sc (argmaxClass (cs.map (fun c => (c, sc c))))) (sc c) →
      argmaxClass (cs.map (fun c => (c, sc c))) ≤ c) := by
  cases cs with
  | nil => cases hne rfl
  | cons c0 rest =>
    simp only [List.map_cons, argmaxClass]
    have hsort2 := (List.pairwise_cons.mp hsort).2
    have hgt : ∀ c ∈ rest, c0 < c := (List.pairwise_cons.mp hsort).1
    rcases goArgmax_spec sc rest c0 hsort2 hgt with ⟨heq, hmax⟩ |
      ⟨hmem, hstrict, hmax, hties⟩
    · rw [heq]
      refine ⟨List.mem_cons_self _ _, ?_, ?_⟩
      · intro c hc
        rcases List.mem_cons.mp hc with hc | hc
        · subst hc; exact fle_refl _
        · exact hmax c hc
      · intro c hc _
        rcases List.mem_cons.mp hc with hc | hc
        · subst hc; exact Nat.le_refl _
        · exact Nat.le_of_lt (hgt c hc)
    · refine ⟨List.mem_cons_of_mem _ hmem, ?_, ?_⟩
      · intro c hc
        rcases List.mem_cons.mp hc with hc | hc
        · subst hc; exact fle_of_lt hstrict
        · exact hmax c hc
      · intro c hc hle
        rcases List.mem_cons.mp hc with hc | hc
        · subst hc; exact absurd hle (fnot_le.mpr hstrict)
        · exact hties c hc hle

theorem distinctLabels_sorted_lt (y : List Nat) :
    (distinctLabels y).Pairwise (· < ·) := by
  have hle : (distinctLabels y).Pairwise (· ≤ ·) :=
    List.sorted_insertionSort _ _
  have hperm := List.perm_insertionSort (· ≤ ·) y.dedup
  have hnd : (distinctLabels y).Nodup := hperm.nodup_iff.mpr (List.nodup_dedup y)
  exact (hle.and hnd).imp (fun h => lt_of_le_of_ne h.1 h.2)

/-- C9: the OneVsRest wrapper fails on a target with fewer than two
distinct labels; on a target with `k ≥ 2` observed labels it trains exactly
`k` binary estimators (one per observed class, on the binary-relabeled
target) and every prediction is one of the observed labels, chosen by
arg-max of per-class scores with ties broken by lowest class index. -/
theorem oneVsRest_spec {σ : Type} (fitB : FeatureMatrix → List Nat → σ)
    (score : σ → (Nat → Frac) → Frac) (M : FeatureMatrix) (y : List Nat) :
    ((distinctLabels y).length < 2 → ovrFit fitB M y = .error .insufficientData) ∧
    (2 ≤ (distinctLabels y).length →
      ∃ m, ovrFit fitB M y = .ok m ∧
        m.classes = distinctLabels y ∧
        m.estimators = (distinctLabels y).map (fun c => fitB M (binaryRelabel y c)) ∧
        m.estimators.length = (distinctLabels y).length ∧
        ∀ x, ovrPredictRow score m x ∈ distinctLabels y ∧
          (∀ c ∈ distinctLabels y,
            Frac.le (score (fitB M (binaryRelabel y c)) x)
              (score (fitB M (binaryRelabel y (ovrPredictRow score m x))) x)) ∧
          (∀ c ∈ distinctLabels y,
            Frac.le (score (fitB M (binaryRelabel y (ovrPredictRow score m x))) x)
              (score (fitB M (binaryRelabel y c)) x) →
            ovrPredictRow score m x ≤ c)) := by
  constructor
  · intro h
    rw [ovrFit, if_pos h]
  · intro h
    have hne : ¬ (distinctLabels y).length < 2 := by omega
    refine ⟨⟨distinctLabels y,
      (distinctLabels y).map (fun c => fitB M (binaryRelabel y c))⟩,
      by rw [ovrFit, if_neg hne], rfl, rfl, by simp, ?_⟩
    intro x
    have hrow : ovrPredictRow score
        ⟨distinctLabels y, (distinctLabels y).map (fun c => fitB M (binaryRelabel y c))⟩ x =
        argmaxClass ((distinctLabels y).map
          (fun c => (c, score (fitB M (binaryRelabel y c)) x))) := by
      rw [ovrPredictRow]
      show argmaxClass (((distinctLabels y).zip
        ((distinctLabels y).map (fun c => fitB M (binaryRelabel y c)))).map
          (fun p => (p.1, score p.2 x))) = _
      rw [zip_map_self, List.map_map]
      rfl
    have hcs_ne : distinctLabels y ≠ [] := by
      intro hcon
      rw [hcon] at h
      simp at h
    obtain ⟨hmem, hmax, hties⟩ := argmax_lowest
      (fun c => score (fitB M (binaryRelabel y c)) x) (distinctLabels y) hcs_ne
      (distinctLabels_sorted_lt y)
    rw [hrow]
    exact ⟨hmem, hmax, hties⟩

/-- C9 witness: the wrapper over the trivial estimator rejects the
single-label target `[0, 0]` and, on the two-label target `[0, 1]`, trains
two estimators whose arg-max prediction stays within the observed labels. -/
theorem oneVsRest_spec_witness :
    (ovrFit exFitB exDense [0, 0] = .error .insufficientData) ∧
    (∃ m, ovrFit exFitB exDense [0, 1] = .ok m ∧
      m.classes = distinctLabels [0, 1] ∧
      m.estimators = (distinctLabels [0, 1]).map
        (fun c => exFitB exDense (binaryRelabel [0, 1] c)) ∧
      m.estimators.length = (distinctLabels [0, 1]).length ∧
      ∀ x, ovrPredictRow exScore m x ∈ distinctLabels [0, 1] ∧
        (∀ c ∈ distinctLabels [0, 1],
          Frac.le (exScore (exFitB exDense (binaryRelabel [0, 1] c)) x)
            (exScore (exFitB exDense
              (binaryRelabel [0, 1] (ovrPredictRow exScore m x))) x)) ∧
        (∀ c ∈ distinctLabels [0, 1],
          Frac.le (exScore (exFitB exDense
              (binaryRelabel [0, 1] (ovrPredictRow exScore m x))) x)
            (exScore (exFitB exDense (binaryRelabel [0, 1] c)) x) →
          ovrPredictRow exScore m x ≤ c)) :=
  ⟨(oneVsRest_spec exFitB exScore exDense [0, 0]).1 (by decide),
   (oneVsRest_spec exFitB exScore exDense [0, 1]).2 (by decide)⟩

/-- C10: the crate's public module surface omits `svm` (its declaration is
commented out) even though the crate documentation lists support vector
machines among the models, while every other documented model-family module
— `linear_models`, `trees`, `ensemble`, `factorization`, and the
`multiclass` wrapper — is exported as a public module. -/
theorem svm_module_commented_out :
    "svm" ∉ publicModules ∧
    "svm" ∈ commentedOutModules ∧
    "svm" ∈ docListedModelModules ∧
    (∀ m ∈ ["linear_models", "trees", "ensemble", "factorization",
            "multiclass"], m ∈ publicModules) := by
  decide

end Rustlearn
